import Mathlib

/-!
# Verification of `pytorch_release_generator`

Shallow embedding of the text-processing core of the repository
(`generate_release_notes.py` and `remove_redundant_tags.py`) over `List Char`,
together with proofs and refutations of the frozen specification claims.

Modelling conventions:
* Python strings are `List Char`; a text file is its character list, and the
  per-line views used by the code (`f.readlines()`, `str.splitlines()`) are
  lists of lines.
* Python's `re` scanning is embedded as explicit character scanners.  Each
  scanner's doc comment records the regex it realizes and, where the regex
  engine's backtracking order matters, the case analysis that justifies the
  embedded semantics.
* `str.strip()` family: `List.dropWhile` / `List.rdropWhile` with the
  corresponding character class (ASCII inputs assumed, as in the repository's
  data).
-/

/-- Python `str.lstrip()` (no argument): drop leading whitespace. -/
def lstripWs (cs : List Char) : List Char := cs.dropWhile Char.isWhitespace

/-- Python `str.rstrip()` (no argument): drop trailing whitespace. -/
def rstripWs (cs : List Char) : List Char := cs.rdropWhile Char.isWhitespace

/-- Python `str.strip()` (no argument): drop whitespace at both ends. -/
def pstrip (cs : List Char) : List Char := rstripWs (lstripWs cs)

/-- Python `str.rstrip(":")`: drop all trailing colons. -/
def rstripColon (cs : List Char) : List Char := cs.rdropWhile (· == ':')

/-- Python `str.strip('##')`: drop `'#'` characters at both ends. -/
def stripHash (cs : List Char) : List Char :=
  (cs.dropWhile (· == '#')).rdropWhile (· == '#')

/-- Python `str.lstrip('- ')`: drop leading `'-'` and `' '` characters. -/
def lstripDashSpace (cs : List Char) : List Char :=
  cs.dropWhile (fun c => c == '-' || c == ' ')

/-- Python `str.lower()` on the repository's ASCII data. -/
def lowerStr (cs : List Char) : List Char := cs.map Char.toLower

/-- One attempted match of the regex `\(#(\d+)\)` anchored at the head of the
input: a literal `(#`, a maximal nonempty digit run (`\d+` is greedy, and a
shorter run cannot be followed by `)` because the next character would be a
digit), then a literal `)`.  Returns the captured digit group. -/
def matchHashAt : List Char → Option (List Char)
  | '(' :: '#' :: rest =>
    if (rest.takeWhile Char.isDigit).isEmpty then none
    else
      match rest.dropWhile Char.isDigit with
      | ')' :: _ => some (rest.takeWhile Char.isDigit)
      | _ => none
  | _ => none

/-- `re.findall(r"\(#(\d+)\)", s)`: all captured digit groups, left to right.

The scanner advances one character at a time even over a successful match.
This is equivalent to Python's skip-past-the-match scanning because matches of
this pattern can never overlap: the characters strictly inside a match span
are `#`, digits and `)`, none of which is the `(` that a later overlapping
match would have to start with. -/
def findHashes : List Char → List (List Char)
  | [] => []
  | c :: cs =>
    match matchHashAt (c :: cs) with
    | some ds => ds :: findHashes cs
    | none => findHashes cs

/-- State machine realizing the scanning of `re.findall(r"\[(.*?)\]", s)` and
`re.sub(r"\[.*?\]", ..., s)`: outside a group, a `[` opens a candidate group;
inside one, characters accumulate until the first `]` closes the group (the
lazy `.*?` stops at the first `]`).  A `[` whose group is never closed is not
part of any match — `fbGo` discards it and `sbGo` keeps its characters
verbatim, exactly as the Python scanners do.  The first argument is `none`
outside a group and `some acc` inside one with accumulated content `acc`. -/
def fbGo : Option (List Char) → List Char → List (List Char)
  | _, [] => []
  | none, c :: cs => if c = '[' then fbGo (some []) cs else fbGo none cs
  | some acc, c :: cs =>
    if c = ']' then acc :: fbGo none cs else fbGo (some (acc ++ [c])) cs

/-- `re.findall(r"\[(.*?)\]", s)`: the bracket-group contents, left to right. -/
def findBrackets (cs : List Char) : List (List Char) := fbGo none cs

/-- Companion of `fbGo` for `re.sub(r"\[.*?\]", '', s)` (see `fbGo`). -/
def sbGo : Option (List Char) → List Char → List Char
  | none, [] => []
  | some acc, [] => '[' :: acc
  | none, c :: cs => if c = '[' then sbGo (some []) cs else c :: sbGo none cs
  | some acc, c :: cs =>
    if c = ']' then sbGo none cs else sbGo (some (acc ++ [c])) cs

/-- `re.sub(r"\[.*?\]", '', s)`: the input with every bracket group removed. -/
def subBrackets (cs : List Char) : List Char := sbGo none cs

/-- `str.splitlines()` used on `'\n'`-separated text (the only separator the
repository's data contains): `slGo acc cs` splits `acc ++ cs` where `acc` is
the partial current line.  A trailing newline does not open an empty final
line, matching Python (`"a\n".splitlines() == ["a"]`). -/
def slGo (acc : List Char) : List Char → List (List Char)
  | [] => [acc]
  | c :: cs =>
    if c = '\n' then
      match cs with
      | [] => [acc]
      | _ :: _ => acc :: slGo [] cs
    else slGo (acc ++ [c]) cs

/-- `str.splitlines()` (newline-separated text; `"".splitlines() == []`). -/
def splitLines : List Char → List (List Char)
  | [] => []
  | c :: cs => slGo [] (c :: cs)

/-! ## Title Parser (`read_pr_list`, generate_release_notes.py lines 28-67) -/

/-- One parsed input line (`read_pr_list` appends one such dict per accepted
line). -/
structure PREntry where
  number : List Char
  original_title : List Char
  tags : List (List Char)
deriving DecidableEq, Repr

/-- `True` on `']' :: cs` when `cs` contains a `\(#(\d+)\)` occurrence; scans
to the first `]` of the input.  `pr_pattern_with_tags =
r"^(?:\[(.*?)\])+.*\(#(\d+)\)"` matches a line iff the line can be decomposed
as one or more `[`…`]` groups (each `(.*?)` can denote arbitrary text under
backtracking) followed by text containing `(#digits)`; such a decomposition
exists iff the line starts with `[` and some `(#digits)` occurrence starts
strictly after some `]` — equivalently after the *first* `]`. -/
def hashAfterRB : List Char → Bool
  | [] => false
  | c :: cs => if c = ']' then !(findHashes cs).isEmpty else hashAfterRB cs

/-- Acceptance of `pr_pattern_with_tags` (see `hashAfterRB`). -/
def matchesWithTags (line : List Char) : Bool :=
  line.head? == some '[' && hashAfterRB line

/-- The regex `\[(.*?)\]` matches at position 0 iff the line starts with `[`
and a `]` occurs later; `pr_pattern_without_tags =
r"^(?!\[(.*?)\]).*\(#(\d+)\)"` requires this lookahead to fail. -/
def startsBracketGroup (line : List Char) : Bool :=
  line.head? == some '[' && (line.drop 1).contains ']'

/-- The digit group captured by a trailing greedy `.*\(#(\d+)\)`: the digits
of the *last* `(#digits)` occurrence.  (In `pr_pattern_with_tags`, every
successful backtracking configuration closes its bracket groups before that
last occurrence — a `]` cannot occur inside an occurrence — so the greedy
`.*` always captures the last occurrence of the whole line.) -/
def lastHashNumber (line : List Char) : Option (List Char) :=
  (findHashes line).getLast?

/-- `read_pr_list`'s treatment of one (already stripped) line: try
`pr_pattern_with_tags` (the tags are all bracket groups of the line, via
`re.findall(r"\[(.*?)\]", line)`), else `pr_pattern_without_tags`
(with empty tags), else skip the line. -/
def read_pr_line (line : List Char) : Option PREntry :=
  if matchesWithTags line then
    some ⟨(lastHashNumber line).getD [], line, findBrackets line⟩
  else if !startsBracketGroup line && !(findHashes line).isEmpty then
    some ⟨(lastHashNumber line).getD [], line, []⟩
  else
    none

/-- `read_pr_list` over the file's lines: each line is stripped, parsed, and
skipped when malformed. -/
def read_pr_list (fileLines : List (List Char)) : List PREntry :=
  fileLines.filterMap (fun l => read_pr_line (pstrip l))

/-! ## Batcher (`prepare_batches`, lines 147-151) -/

/-- `prepare_batches`: `[lst[i:i+n] for i in range(0, len(lst), n)]`.
For `n = 0` Python's `range` raises `ValueError`; the claims only concern
positive `n`, and the model returns `[]` there. -/
def prepare_batches : List α → Nat → List (List α)
  | [], _ => []
  | x :: xs, n =>
    if n = 0 then []
    else (x :: xs).take n :: prepare_batches ((x :: xs).drop n) n
termination_by l _ => l.length
decreasing_by
  rename_i h
  have hn : 0 < n := Nat.pos_of_ne_zero h
  simp only [List.length_drop, List.length_cons]
  omega

/-! ## Category Parser (`parse_ollama_response`, lines 265-322) -/

/-- One categorized entry (`{"summary": ..., "pr_number": ...}`). -/
structure CatEntry where
  summary : List Char
  pr_number : List Char
deriving DecidableEq, Repr

/-- The `categories` dictionary: an insertion-ordered association list from
category key to entry list, as a Python dict of lists. -/
abbrev CategoryMap := List (List Char × List CatEntry)

/-- The eight fixed category keys, in the dict's insertion order (which is
also `generate_markdown`'s fixed presentation order). -/
def categoryOrder : List (List Char) :=
  ["bc_breaking".toList, "deprecations".toList, "new_features".toList,
   "improvements".toList, "bug_fixes".toList, "performance".toList,
   "documentation".toList, "developers".toList]

/-- The initial `categories` dict: all eight keys bound to empty lists. -/
def categoriesInit : CategoryMap := categoryOrder.map (fun k => (k, []))

/-- The `category_mapping` table from display title to category key. -/
def categoryMapping : List (List Char × List Char) :=
  [("BC breaking".toList, "bc_breaking".toList),
   ("Deprecations".toList, "deprecations".toList),
   ("New_features".toList, "new_features".toList),
   ("Improvements".toList, "improvements".toList),
   ("Bug Fixes".toList, "bug_fixes".toList),
   ("Performance".toList, "performance".toList),
   ("Documentation".toList, "documentation".toList),
   ("Developers".toList, "developers".toList)]

/-- `category_mapping.get(title, None)`: exact (case-sensitive) lookup. -/
def lookupMapping (title : List Char) : Option (List Char) :=
  (categoryMapping.find? (fun p => p.1 == title)).map (·.2)

/-- `dict.get(key, [])` on a `CategoryMap`. -/
def getD (m : CategoryMap) (k : List Char) : List CatEntry :=
  match m.find? (fun p => p.1 == k) with
  | some p => p.2
  | none => []

/-- `categories[k].append(e)`; keys not present are left untouched (the code
only appends under keys of the initial dict, so this case never arises). -/
def appendAt (m : CategoryMap) (k : List Char) (e : CatEntry) : CategoryMap :=
  m.map (fun p => if p.1 == k then (p.1, p.2 ++ [e]) else p)

/-- Scan for the first occurrence of `' ' '(' '#' digits+ ')'`, i.e. the lazy
`(.*?) \(#(\d+)\)` tail of `pr_pattern`: returns the text before the space
(the summary capture) and the digit group. -/
def findSummaryHash : List Char → Option (List Char × List Char)
  | [] => none
  | c :: cs =>
    match c, matchHashAt cs with
    | ' ', some ds => some ([], ds)
    | _, _ => (findSummaryHash cs).map (fun p => (c :: p.1, p.2))

/-- Backtracking of the present-branch of the optional group in
`pr_pattern = r"-(?:\[(.*?)\])? (.*?) \(#(\d+)\)"`: the lazy `(.*?)` inside
`\[...\]` ends at successive `]` positions; for each, the literal space and
then the summary/number tail must match, and the first full success wins.
`acc` is the tag text committed by earlier failed (shorter) candidates. -/
def tagBranch (acc : List Char) (cs : List Char) : Option (List Char × List Char × List Char) :=
  let seg := cs.takeWhile (· ≠ ']')
  match h : cs.drop seg.length with
  | ']' :: ' ' :: rest2 =>
    match findSummaryHash rest2 with
    | some (s, d) => some (acc ++ seg, s, d)
    | none => tagBranch (acc ++ seg ++ [']']) (' ' :: rest2)
  | ']' :: rest => tagBranch (acc ++ seg ++ [']']) rest
  | _ => none
termination_by cs.length
decreasing_by
  all_goals
    have hlen := congrArg List.length h
    simp only [List.length_drop, List.length_cons] at hlen ⊢
    omega

/-- `pr_pattern.match(line)` with the entry construction of lines 308-314:
group(1) (the optional bracket group directly after `-`) is folded into the
summary as `[tags] summary` when nonempty. -/
def bulletMatch (line : List Char) : Option CatEntry :=
  match line with
  | '-' :: '[' :: cs =>
    match tagBranch [] cs with
    | some (tag, s, d) =>
      some (if tag.isEmpty then ⟨s, d⟩ else ⟨'[' :: tag ++ ']' :: ' ' :: s, d⟩)
    | none => none
  | '-' :: ' ' :: cs => (findSummaryHash cs).map (fun p => ⟨p.1, p.2⟩)
  | _ => none

/-- One iteration of `parse_ollama_response`'s line loop over the state
`(current_category, categories)`. -/
def parseStep (st : Option (List Char) × CategoryMap) (rawLine : List Char) :
    Option (List Char) × CategoryMap :=
  let line := pstrip rawLine
  if "## ".toList.isPrefixOf line then
    (lookupMapping (pstrip (rstripColon (line.drop 3))), st.2)
  else if "- ".toList.isPrefixOf line then
    match bulletMatch line, st.1 with
    | some e, some cat => (st.1, appendAt st.2 cat e)
    | _, _ => st
  else st

/-- `parse_ollama_response`. -/
def parse_ollama_response (text : List Char) : CategoryMap :=
  ((splitLines text).foldl parseStep (none, categoriesInit)).2

/-! ## Aggregator / Renderer (`aggregate_markdown`, `generate_markdown`) -/

/-- `aggregate_markdown`: for each key of the existing dict, extend its list
with the new result's list for that key (empty when absent). -/
def aggregate_markdown (existing nw : CategoryMap) : CategoryMap :=
  existing.map (fun p => (p.1, p.2 ++ getD nw p.1))

/-- The category-key → display-title table of `generate_markdown`
(its `.get(category, category.capitalize())` default is unreachable for the
eight iterated keys, all of which the table contains). -/
def categoryTitle (k : List Char) : List Char :=
  ((categoryMapping.find? (fun p => p.2 == k)).map (·.1)).getD k

/-- `f"https://github.com/{REPO_OWNER}/{REPO_NAME}/pull/{pr_number}"`. -/
def prUrl (n : List Char) : List Char :=
  "https://github.com/pytorch/pytorch/pull/".toList ++ n

/-- One rendered bullet: `- {summary} (#{n}).\n`, or the hyperlinked form
`- {summary} [#{n}]({url}).\n` when URLs are requested. -/
def renderEntry (include_urls : Bool) (e : CatEntry) : List Char :=
  if include_urls then
    '-' :: ' ' :: (e.summary ++ ' ' :: '[' :: '#' ::
      (e.pr_number ++ ']' :: '(' :: (prUrl e.pr_number ++ ')' :: '.' :: '\n' :: [])))
  else
    '-' :: ' ' :: (e.summary ++ ' ' :: '(' :: '#' ::
      (e.pr_number ++ ')' :: '.' :: '\n' :: []))

/-- One category block: header plus bullets plus a blank line, or nothing when
the category has no entries. -/
def renderBlock (cats : CategoryMap) (include_urls : Bool) (k : List Char) : List Char :=
  match getD cats k with
  | [] => []
  | es => '#' :: '#' :: ' ' :: (categoryTitle k ++ ':' :: '\n' ::
      ((es.map (renderEntry include_urls)).flatten ++ ['\n']))

/-- `generate_markdown`: concatenate the blocks of the eight categories in
fixed order and strip the result. -/
def generate_markdown (cats : CategoryMap) (include_urls : Bool) : List Char :=
  pstrip (categoryOrder.map (renderBlock cats include_urls)).flatten

/-! ## Reconciler (`extract_pr_numbers_from_release`, `summarize_processing`) -/

/-- `extract_pr_numbers_from_release` on the file's text: per line, all
`\(#(\d+)\)` captures (the code accumulates them into a set; the model keeps
the list, and set-level claims are stated via membership). -/
def extract_pr_numbers (text : List Char) : List (List Char) :=
  ((splitLines text).map findHashes).flatten

/-- The result of `summarize_processing`: the three reported counts and the
side file's lines (`none` when the file is not written). -/
structure SummaryResult where
  total : Nat
  processed : Nat
  unprocessed : Nat
  unprocessedFile : Option (List (List Char))
deriving DecidableEq, Repr

/-- `summarize_processing` (lines 410-438). -/
def summarize_processing (input_prs : List PREntry)
    (release_pr_numbers : Finset (List Char)) : SummaryResult :=
  let inputSet : Finset (List Char) := (input_prs.map (·.number)).toFinset
  let unprocessedSet := inputSet \ release_pr_numbers
  { total := inputSet.card
    processed := (release_pr_numbers ∩ inputSet).card
    unprocessed := unprocessedSet.card
    unprocessedFile :=
      if 0 < unprocessedSet.card then
        some ((input_prs.filter (fun pr => pr.number ∈ unprocessedSet)).map
          (·.original_title))
      else none }

/-! ## Response Extractor (`send_to_ollama`, lines 220-254) and the main
loop's per-batch skip (lines 489-493) -/

/-- One nonempty line of the streamed response: either a JSON decode failure
(logged and skipped) or a decoded object with its optional `response` text
and its `done` flag (absent ↦ `false`). -/
inductive OllamaChunk where
  | malformed
  | chunk (response : Option (List Char)) (done : Bool)

/-- The accumulation loop of `send_to_ollama`: append each `response` field
and stop once a `done` chunk is consumed (its own `response`, appended before
the flag is tested, is kept). -/
def accumulate : List OllamaChunk → List Char
  | [] => []
  | .malformed :: rest => accumulate rest
  | .chunk r d :: rest => r.getD [] ++ (if d then [] else accumulate rest)

/-- The observable outcome of the HTTP POST: an exception from `requests`, or
a response with its status code and streamed lines. -/
inductive NetResult where
  | failed
  | ok (status : Nat) (body : List OllamaChunk)

/-- `send_to_ollama`: the stripped accumulated text on HTTP 200, and the
empty string on a non-200 status or a transport exception. -/
def send_to_ollama : NetResult → List Char
  | .failed => []
  | .ok status body => if status = 200 then pstrip (accumulate body) else []

/-- The per-batch tail of `main`'s loop, from the model call onward: an empty
response skips the batch (`continue`), otherwise the parsed result — after
the tag-enrichment pass, abstracted as `enrich` — is aggregated.  (The
enrichment pass iterates over Python `set`s whose order is unspecified, so it
is kept abstract; the claims settled here do not depend on it.) -/
def mainBatchStep (enrich : CategoryMap → CategoryMap) (cats : CategoryMap)
    (net : NetResult) : CategoryMap :=
  let resp := send_to_ollama net
  if resp.isEmpty then cats
  else aggregate_markdown cats (enrich (parse_ollama_response resp))

/-! ## Tag De-duplication Utility (`clean_tags`, remove_redundant_tags.py)

The file is modelled as its list of newline-terminated lines, each line given
without its trailing `'\n'` (the code re-appends exactly one `'\n'` to every
rebuilt bullet line, so on newline-terminated input, line equality of the
models coincides with Python's string comparison.) -/

/-- The category-line normalization
`line.strip('##').strip().rstrip(':').lower()`. -/
def categoryOf (line : List Char) : List Char :=
  lowerStr (rstripColon (pstrip (stripHash line)))

/-- The tag-cleaning loop: strip each tag, drop empty tags, tags equal (after
lowercasing) to the current category, and tags already seen (first occurrence
kept with its original casing).  `seen` accumulates lowercased survivors. -/
def ctGo (cat : List Char) (seen : List (List Char)) :
    List (List Char) → List (List Char)
  | [] => []
  | tag :: tags =>
    if (lowerStr (pstrip tag)).isEmpty then ctGo cat seen tags
    else if lowerStr (pstrip tag) == cat then ctGo cat seen tags
    else if seen.contains (lowerStr (pstrip tag)) then ctGo cat seen tags
    else pstrip tag :: ctGo cat (seen ++ [lowerStr (pstrip tag)]) tags

def cleanTagsFold (cat : List Char) (tags : List (List Char)) : List (List Char) :=
  ctGo cat [] tags

/-- `'[' ++ tag ++ ']'`: a surviving tag re-wrapped in brackets. -/
def wrapTag (t : List Char) : List Char := '[' :: t ++ [']']

/-- `' '.join(cleaned_tags)`. -/
def joinTags : List (List Char) → List Char
  | [] => []
  | t :: ts => wrapTag t ++ (if ts.isEmpty then [] else ' ' :: joinTags ts)

/-- The content part of a bullet line: remove all bracket groups, strip,
remove the leading bullet dash (`lstrip('- ')`), strip again. -/
def bulletContent (l : List Char) : List Char :=
  pstrip (lstripDashSpace (pstrip (subBrackets l)))

/-- Rebuild of a bullet line:
`'- ' + ' '.join(cleaned_tags) + (' ' if cleaned_tags else '') + content`. -/
def rebuildLine (ts : List (List Char)) (content : List Char) : List Char :=
  '-' :: ' ' :: joinTags ts ++ (if ts.isEmpty then [] else [' ']) ++ content

/-- `clean_tags`'s treatment of one line under the current category:
returns the new current category and the output line.  Category lines
(`startswith('##')`, unstripped) update the category and pass through;
lines whose stripped form does not start with `-` pass through; bullet lines
are rebuilt from their cleaned tags and content. -/
def cleanLine (cat : List Char) (line : List Char) : List Char × List Char :=
  if "##".toList.isPrefixOf line then (categoryOf line, line)
  else if (pstrip line).head? ≠ some '-' then (cat, line)
  else
    let l := pstrip line
    (cat, rebuildLine (cleanTagsFold cat (findBrackets l)) (bulletContent l))

/-- The line loop of `clean_tags` from a given current category. -/
def cleanGo (cat : List Char) : List (List Char) → List (List Char)
  | [] => []
  | l :: ls => (cleanLine cat l).2 :: cleanGo (cleanLine cat l).1 ls

/-- The whole `clean_tags` pass over the file's lines (initial category `""`). -/
def clean_tags (lines : List (List Char)) : List (List Char) :=
  cleanGo [] lines

/-- A line on which one `clean_tags` pass is final: it is a category header,
or not a bullet line, or its bracket-free content (after stripping the
leading bullet marker) does not itself begin with a dash.  The counterexample
line `- [a] \t- foo` violates the third disjunct: `lstrip('- ')` stops at the
tab, the subsequent `strip()` removes the tab and re-exposes a leading dash
that only a second pass consumes. -/
def bulletStable (l : List Char) : Prop :=
  "##".toList.isPrefixOf l = true ∨ (pstrip l).head? ≠ some '-' ∨
    (bulletContent (pstrip l)).head? ≠ some '-'

instance (l : List Char) : Decidable (bulletStable l) :=
  inferInstanceAs (Decidable (_ ∨ _ ∨ _))

/-! ## Helper lemmas -/

theorem pb_nil {α : Type} (n : Nat) : prepare_batches ([] : List α) n = [] := by
  rw [prepare_batches]

theorem pb_cons {α : Type} (x : α) (xs : List α) (n : Nat) (hn : n ≠ 0) :
    prepare_batches (x :: xs) n =
      (x :: xs).take n :: prepare_batches ((x :: xs).drop n) n := by
  rw [prepare_batches]
  simp [hn]

theorem pb_eq_nil {α : Type} (l : List α) (n : Nat) (hn : n ≠ 0) :
    prepare_batches l n = [] ↔ l = [] := by
  constructor
  · intro h
    match l with
    | [] => rfl
    | x :: xs => rw [pb_cons x xs n hn] at h; cases h
  · intro h; subst h; exact pb_nil n

theorem prepare_batches_spec_aux {α : Type} (n : Nat) (hn : n ≠ 0) :
    ∀ (k : Nat) (l : List α), l.length ≤ k →
      (prepare_batches l n).flatten = l ∧
      (∀ b ∈ prepare_batches l n, b.length ≤ n ∧ b ≠ []) ∧
      (∀ i, i + 1 < (prepare_batches l n).length →
        ((prepare_batches l n).getD i []).length = n) := by
  intro k
  induction k with
  | zero =>
    intro l hl
    have : l = [] := List.eq_nil_of_length_eq_zero (Nat.le_zero.mp hl)
    subst this
    simp [pb_nil]
  | succ k ih =>
    intro l hl
    match l with
    | [] => simp [pb_nil]
    | x :: xs =>
      have hlen : ((x :: xs).drop n).length ≤ k := by
        simp only [List.length_drop, List.length_cons]
        simp only [List.length_cons] at hl
        omega
      obtain ⟨ih1, ih2, ih3⟩ := ih ((x :: xs).drop n) hlen
      rw [pb_cons x xs n hn]
      refine ⟨?_, ?_, ?_⟩
      · simp only [List.flatten_cons, ih1, List.take_append_drop]
      · intro b hb
        rcases List.mem_cons.mp hb with rfl | hb
        · constructor
          · simpa using List.length_take_le n (x :: xs)
          · match n with
            | m + 1 => simp
        · exact ih2 b hb
      · intro i hi
        match i with
        | 0 =>
          simp only [List.length_cons] at hi
          have hrest : prepare_batches ((x :: xs).drop n) n ≠ [] := by
            intro hc; rw [hc] at hi; simp at hi
          have hdrop : (x :: xs).drop n ≠ [] :=
            fun hc => hrest ((pb_eq_nil _ n hn).mpr hc)
          have hlt : n < (x :: xs).length := by
            by_contra hge
            exact hdrop (List.drop_eq_nil_of_le (Nat.le_of_not_lt hge))
          simpa [List.length_take] using Nat.min_eq_left (Nat.le_of_lt hlt)
        | j + 1 =>
          simp only [List.length_cons, Nat.add_lt_add_iff_right] at hi
          simpa using ih3 j hi

/-! ## Claim C5 -/

/-- **C5**: for every entry list and every positive batch size,
`prepare_batches` is a lossless, order-preserving partition: concatenating
the batches yields the original list, every batch is nonempty of size at most
the batch size, and every batch except possibly the last has exactly the
batch size. -/
theorem prepare_batches_partition {α : Type} (l : List α) (n : Nat) (h : 0 < n) :
    (prepare_batches l n).flatten = l ∧
    (∀ b ∈ prepare_batches l n, b.length ≤ n ∧ b ≠ []) ∧
    (∀ i, i + 1 < (prepare_batches l n).length →
      ((prepare_batches l n).getD i []).length = n) :=
  prepare_batches_spec_aux n (Nat.pos_iff_ne_zero.mp h) l.length l (Nat.le_refl _)

/-- Witness for C5 at `l = [1,2,3]`, `n = 2`. -/
theorem prepare_batches_partition_witness :
    (prepare_batches [1, 2, 3] 2).flatten = [1, 2, 3] ∧
    (∀ b ∈ prepare_batches [1, 2, 3] 2, b.length ≤ 2 ∧ b ≠ []) ∧
    (∀ i, i + 1 < (prepare_batches [1, 2, 3] 2).length →
      ((prepare_batches [1, 2, 3] 2).getD i []).length = 2) :=
  prepare_batches_partition [1, 2, 3] 2 (by decide)

/-! ## Claim C9 -/

theorem getD_categoriesInit (k : List Char) : getD categoriesInit k = [] := by
  unfold getD
  cases h : categoriesInit.find? (fun p => p.1 == k) with
  | none => rfl
  | some p =>
    have hm := List.mem_of_find?_eq_some h
    have hall : ∀ q ∈ categoriesInit, q.2 = ([] : List CatEntry) := by decide
    exact hall p hm

theorem aggregate_categoriesInit (cats : CategoryMap) :
    aggregate_markdown cats categoriesInit = cats := by
  unfold aggregate_markdown
  induction cats with
  | nil => rfl
  | cons p m ih =>
    simp only [List.map_cons, getD_categoriesInit, List.append_nil] at ih ⊢
    rw [ih]

/-- **C9**: merging an empty batch result (all eight category lists empty,
i.e. the initial dict) into any cumulative `CategoryMap` leaves the map
unchanged, so the Markdown rendered after the merge — with or without URLs —
is identical to the Markdown rendered before it. -/
theorem aggregate_empty_identity (cats : CategoryMap) (include_urls : Bool) :
    aggregate_markdown cats categoriesInit = cats ∧
    generate_markdown (aggregate_markdown cats categoriesInit) include_urls =
      generate_markdown cats include_urls := by
  refine ⟨aggregate_categoriesInit cats, ?_⟩
  rw [aggregate_categoriesInit cats]

/-! ## Claim C10 -/

theorem keysOf_appendAt (m : CategoryMap) (k : List Char) (e : CatEntry) :
    (appendAt m k e).map Prod.fst = m.map Prod.fst := by
  unfold appendAt
  induction m with
  | nil => rfl
  | cons p m ih =>
    simp only [List.map_cons, List.map_map] at ih ⊢
    rw [ih]
    by_cases h : p.1 == k <;> simp [h]

theorem keysOf_parseStep (st : Option (List Char) × CategoryMap) (line : List Char) :
    ((parseStep st line).2).map Prod.fst = (st.2).map Prod.fst := by
  unfold parseStep
  dsimp only
  split
  · rfl
  · split
    · cases hb : bulletMatch (pstrip line) with
      | none => cases st.1 <;> simp [hb]
      | some e =>
        cases hc : st.1 with
        | none => simp [hb, hc]
        | some cat => simp [hb, hc, keysOf_appendAt]
    · rfl

theorem keysOf_parse_foldl (lines : List (List Char)) :
    ∀ st : Option (List Char) × CategoryMap,
      ((lines.foldl parseStep st).2).map Prod.fst = (st.2).map Prod.fst := by
  induction lines with
  | nil => intro st; rfl
  | cons l ls ih => intro st; rw [List.foldl_cons, ih, keysOf_parseStep]

theorem getD_eq_nil_of_not_mem (m : CategoryMap) (k : List Char)
    (h : k ∉ m.map Prod.fst) : getD m k = [] := by
  unfold getD
  rw [List.find?_eq_none.mpr ?_]
  intro p hp hpk
  exact h (List.mem_map.mpr ⟨p, hp, by simpa using hpk⟩)

/-- **C10**: every result of `parse_ollama_response` has exactly the eight
fixed category keys (in the initial dict's order), and `aggregate_markdown`
preserves the existing map's key set exactly: it never adds a key, so entries
of the new result under keys absent from the existing map are discarded
(absent from the merged map). -/
theorem category_map_key_invariants :
    (∀ text, (parse_ollama_response text).map Prod.fst = categoryOrder) ∧
    (∀ existing nw : CategoryMap,
      (aggregate_markdown existing nw).map Prod.fst = existing.map Prod.fst) ∧
    (∀ (existing nw : CategoryMap) (k : List Char),
      k ∉ existing.map Prod.fst → getD (aggregate_markdown existing nw) k = []) := by
  refine ⟨?_, ?_, ?_⟩
  · intro text
    unfold parse_ollama_response
    rw [keysOf_parse_foldl]
    decide
  · intro existing nw
    unfold aggregate_markdown
    rw [List.map_map]
    rfl
  · intro existing nw k hk
    apply getD_eq_nil_of_not_mem
    unfold aggregate_markdown
    rw [List.map_map]
    exact hk

/-- Witness for C10's hypothesis-bearing part at a concrete map and key. -/
theorem category_map_key_invariants_witness :
    (parse_ollama_response "x".toList).map Prod.fst = categoryOrder ∧
    getD (aggregate_markdown categoriesInit categoriesInit) "zzz".toList = [] :=
  ⟨category_map_key_invariants.1 "x".toList,
   category_map_key_invariants.2.2 categoriesInit categoriesInit "zzz".toList
     (by decide)⟩

/-! ## Claim C6 -/

/-- **C6**: concrete end-to-end scenario.  The Title Parser maps
`[inductor][AOTI] Fix bug (#123)` to number `123` with tags
`[inductor, AOTI]`; the Category Parser, on `## Bug Fixes:` followed by
`- [Bug Fixes] Fixes a crash (#123)`, places exactly one entry with summary
`[Bug Fixes] Fixes a crash` and number `123` under `bug_fixes` (all other
categories empty); rendering that map without URLs yields exactly
`## Bug Fixes:` and the bullet line `- [Bug Fixes] Fixes a crash (#123).`. -/
theorem scenario_end_to_end :
    read_pr_line "[inductor][AOTI] Fix bug (#123)".toList =
      some ⟨"123".toList, "[inductor][AOTI] Fix bug (#123)".toList,
        ["inductor".toList, "AOTI".toList]⟩ ∧
    parse_ollama_response "## Bug Fixes:\n- [Bug Fixes] Fixes a crash (#123)".toList =
      appendAt categoriesInit "bug_fixes".toList
        ⟨"[Bug Fixes] Fixes a crash".toList, "123".toList⟩ ∧
    getD (parse_ollama_response
        "## Bug Fixes:\n- [Bug Fixes] Fixes a crash (#123)".toList)
        "bug_fixes".toList =
      [⟨"[Bug Fixes] Fixes a crash".toList, "123".toList⟩] ∧
    generate_markdown
        (parse_ollama_response
          "## Bug Fixes:\n- [Bug Fixes] Fixes a crash (#123)".toList) false =
      "## Bug Fixes:\n- [Bug Fixes] Fixes a crash (#123).".toList ∧
    splitLines (generate_markdown
        (parse_ollama_response
          "## Bug Fixes:\n- [Bug Fixes] Fixes a crash (#123)".toList) false) =
      ["## Bug Fixes:".toList, "- [Bug Fixes] Fixes a crash (#123).".toList] := by
  refine ⟨by decide, by decide, by decide, by decide, by decide⟩

/-! ## Claim C7 -/

/-- The failure modes named by the claim: transport error, non-200 status,
or empty accumulated response text. -/
def netFailure : NetResult → Prop
  | .failed => True
  | .ok status body => status ≠ 200 ∨ accumulate body = []

/-- **C7**: for every failed model call — transport error, non-success
status, or empty accumulated text — `send_to_ollama` returns the empty
string, and an empty response makes the main loop skip the batch entirely:
the cumulative `CategoryMap` after the batch equals the one before it, for
every parse/enrichment behavior. -/
theorem model_call_failure_skips_batch :
    (∀ net : NetResult, netFailure net → send_to_ollama net = []) ∧
    (∀ (enrich : CategoryMap → CategoryMap) (cats : CategoryMap) (net : NetResult),
      send_to_ollama net = [] → mainBatchStep enrich cats net = cats) := by
  constructor
  · intro net hf
    cases net with
    | failed => rfl
    | ok status body =>
      rcases hf with hs | hb
      · simp [send_to_ollama, hs]
      · simp only [send_to_ollama, hb]
        split <;> rfl
  · intro enrich cats net h
    unfold mainBatchStep
    rw [h]
    rfl

/-- Witness for C7: a non-200 status with a nonempty body. -/
theorem model_call_failure_skips_batch_witness :
    send_to_ollama (.ok 500 [.chunk (some "hi".toList) true]) = [] ∧
    mainBatchStep id categoriesInit (.ok 500 [.chunk (some "hi".toList) true]) =
      categoriesInit :=
  ⟨model_call_failure_skips_batch.1 _ (Or.inl (by decide)),
   model_call_failure_skips_batch.2 id categoriesInit _
     (model_call_failure_skips_batch.1 _ (Or.inl (by decide)))⟩

/-! ## Claim C8 -/

/-- **C8**: `summarize_processing` reports the sizes of the input PR-number
set, of the intersection of the extracted set with it, and of the difference
(input minus extracted); processed and unprocessed counts sum to the total;
the side file is written exactly when some input entry's number was not
extracted, and then contains the original title lines of exactly the
unprocessed entries, in input order. -/
theorem summarize_processing_spec (input_prs : List PREntry)
    (rel : Finset (List Char)) :
    (summarize_processing input_prs rel).total =
      (input_prs.map (·.number)).toFinset.card ∧
    (summarize_processing input_prs rel).processed =
      (rel ∩ (input_prs.map (·.number)).toFinset).card ∧
    (summarize_processing input_prs rel).unprocessed =
      ((input_prs.map (·.number)).toFinset \ rel).card ∧
    (summarize_processing input_prs rel).processed +
      (summarize_processing input_prs rel).unprocessed =
      (summarize_processing input_prs rel).total ∧
    ((summarize_processing input_prs rel).unprocessedFile = none ↔
      ∀ pr ∈ input_prs, pr.number ∈ rel) ∧
    (∀ ls, (summarize_processing input_prs rel).unprocessedFile = some ls →
      ls = (input_prs.filter (fun pr => pr.number ∉ rel)).map (·.original_title)) := by
  refine ⟨rfl, rfl, rfl, ?_, ?_, ?_⟩
  · show (rel ∩ _).card + _ = _
    rw [Finset.inter_comm]
    exact Finset.card_inter_add_card_sdiff _ _
  · unfold summarize_processing
    dsimp only
    constructor
    · intro h pr hpr
      by_cases hc : 0 < ((input_prs.map (·.number)).toFinset \ rel).card
      · rw [if_pos hc] at h; cases h
      · have h0 : (input_prs.map (·.number)).toFinset \ rel = ∅ :=
          Finset.card_eq_zero.mp (Nat.eq_zero_of_not_pos hc)
        have hsub := Finset.sdiff_eq_empty_iff_subset.mp h0
        exact hsub (List.mem_toFinset.mpr (List.mem_map.mpr ⟨pr, hpr, rfl⟩))
    · intro hall
      rw [if_neg]
      intro hc
      obtain ⟨x, hx⟩ := Finset.card_pos.mp hc
      rw [Finset.mem_sdiff, List.mem_toFinset] at hx
      obtain ⟨hm, hnr⟩ := hx
      obtain ⟨pr, hpr, rfl⟩ := List.mem_map.mp hm
      exact hnr (hall pr hpr)
  · intro ls h
    unfold summarize_processing at h
    dsimp only at h
    split at h
    · injection h with h
      rw [← h]
      congr 1
      apply List.filter_congr
      intro pr hpr
      have hS : pr.number ∈ (input_prs.map (·.number)).toFinset :=
        List.mem_toFinset.mpr (List.mem_map.mpr ⟨pr, hpr, rfl⟩)
      simp [Finset.mem_sdiff, hS]
    · cases h

/-- Witness for C8 at the spec's example: inputs 123, 124, 125 with 123 and
124 extracted; the side file holds exactly the title line of 125. -/
theorem summarize_processing_spec_witness :
    (summarize_processing
        [⟨"123".toList, "A (#123)".toList, []⟩,
         ⟨"124".toList, "B (#124)".toList, []⟩,
         ⟨"125".toList, "C (#125)".toList, []⟩]
        {"123".toList, "124".toList}).unprocessedFile = none ↔
      ∀ pr ∈ [(⟨"123".toList, "A (#123)".toList, []⟩ : PREntry),
              ⟨"124".toList, "B (#124)".toList, []⟩,
              ⟨"125".toList, "C (#125)".toList, []⟩],
        pr.number ∈ ({"123".toList, "124".toList} : Finset (List Char)) :=
  (summarize_processing_spec _ _).2.2.2.2.1

/-! ## Claim C1 -/

/-- Modelled from the claim's words (refinement reference, not from the
code): the ordered bracket contents *preceding the first non-bracket text* of
the line — scan leading `[`…`]` groups from the start and stop at the first
character that does not open a further group. -/
def lbtGo : Option (List Char) → List Char → List (List Char)
  | none, [] => []
  | none, c :: cs => if c = '[' then lbtGo (some []) cs else []
  | some _, [] => []
  | some acc, c :: cs =>
    if c = ']' then acc :: lbtGo none cs else lbtGo (some (acc ++ [c])) cs

/-- See `lbtGo`. -/
def leadingBracketTags (cs : List Char) : List (List Char) := lbtGo none cs

/-- **C1 counterexample**: on the accepted line `[a] fix [b] bug (#12)`, the
code's tags are all bracket contents of the line (`a`, `b`), not only those
preceding the first non-bracket text (`a` alone), refuting the claim as
stated. -/
theorem title_parser_tags_counterexample :
    (read_pr_line "[a] fix [b] bug (#12)".toList).map PREntry.tags =
      some ["a".toList, "b".toList] ∧
    leadingBracketTags "[a] fix [b] bug (#12)".toList = ["a".toList] ∧
    (read_pr_line "[a] fix [b] bug (#12)".toList).map PREntry.tags ≠
      some (leadingBracketTags "[a] fix [b] bug (#12)".toList) :=
  ⟨by decide, by decide, by decide⟩

theorem findHashes_cons_some {c : Char} {cs ds : List Char}
    (h : matchHashAt (c :: cs) = some ds) :
    findHashes (c :: cs) = ds :: findHashes cs := by
  simp only [findHashes, h]

theorem findHashes_cons_none {c : Char} {cs : List Char}
    (h : matchHashAt (c :: cs) = none) :
    findHashes (c :: cs) = findHashes cs := by
  simp only [findHashes, h]

theorem matchHashAt_eq_some {cs ds : List Char} (h : matchHashAt cs = some ds) :
    ∃ rest, cs = '(' :: '#' :: (ds ++ ')' :: rest) ∧ ds ≠ [] ∧
      ds.all Char.isDigit := by
  rw [matchHashAt.eq_def] at h
  split at h
  · rename_i r
    split at h
    · cases h
    · rename_i hne
      split at h
      · rename_i x hdrop
        injection h with h
        subst h
        refine ⟨x, ?_, ?_, ?_⟩
        · rw [← hdrop, List.takeWhile_append_dropWhile]
        · simpa [List.isEmpty_iff] using hne
        · rw [List.all_eq_true]
          intro y hy
          exact List.mem_takeWhile_imp hy
      · cases h
  · cases h

theorem findHashes_append_ne_nil {y : List Char} (hy : findHashes y ≠ []) :
    ∀ x, findHashes (x ++ y) ≠ [] := by
  intro x
  induction x with
  | nil => simpa using hy
  | cons c x ih =>
    rw [List.cons_append]
    cases hm : matchHashAt (c :: (x ++ y)) with
    | some ds => rw [findHashes_cons_some hm]; simp
    | none => rw [findHashes_cons_none hm]; exact ih

theorem findHashes_getLast {cs ds : List Char}
    (h : (findHashes cs).getLast? = some ds) :
    ∃ a b, cs = a ++ '(' :: '#' :: (ds ++ ')' :: b) ∧ findHashes b = [] ∧
      ds ≠ [] ∧ ds.all Char.isDigit := by
  induction cs with
  | nil => simp [findHashes] at h
  | cons c cs ih =>
    cases hm : matchHashAt (c :: cs) with
    | none =>
      rw [findHashes_cons_none hm] at h
      obtain ⟨a, b, hab, hb, hne, hdig⟩ := ih h
      exact ⟨c :: a, b, by rw [hab]; rfl, hb, hne, hdig⟩
    | some ds0 =>
      rw [findHashes_cons_some hm] at h
      cases hrest : findHashes cs with
      | nil =>
        rw [hrest] at h
        have hds : ds0 = ds := by simpa using h
        obtain ⟨rest, hcs, hne, hdig⟩ := matchHashAt_eq_some hm
        subst hds
        have hcs2 : cs = ('#' :: (ds0 ++ [')'])) ++ rest := by
          have ht := congrArg List.tail hcs
          simp only [List.tail_cons] at ht
          rw [ht]
          simp
        have hfr : findHashes rest = [] := by
          by_contra hbne
          rw [hcs2] at hrest
          exact findHashes_append_ne_nil hbne _ hrest
        refine ⟨[], rest, ?_, hfr, hne, hdig⟩
        rw [List.nil_append]
        exact hcs
      | cons e l =>
        rw [hrest, List.getLast?_cons_cons, ← hrest] at h
        obtain ⟨a, b, hab, hb, hne, hdig⟩ := ih h
        exact ⟨c :: a, b, by rw [hab]; rfl, hb, hne, hdig⟩

theorem hashAfterRB_findHashes_ne_nil {line : List Char}
    (h : hashAfterRB line = true) : findHashes line ≠ [] := by
  induction line with
  | nil => simp [hashAfterRB] at h
  | cons c cs ih =>
    rw [hashAfterRB] at h
    by_cases hc : c = ']'
    · rw [if_pos hc] at h
      have hne : findHashes cs ≠ [] := by
        simpa [List.isEmpty_iff] using h
      cases hm : matchHashAt (c :: cs) with
      | some ds => rw [findHashes_cons_some hm]; simp
      | none => rw [findHashes_cons_none hm]; exact hne
    · rw [if_neg hc] at h
      cases hm : matchHashAt (c :: cs) with
      | some ds => rw [findHashes_cons_some hm]; simp
      | none => rw [findHashes_cons_none hm]; exact ih h

/-- **C1 (amended)**: for every line the Title Parser accepts, the entry's
number is the digit group inside the *final* `(#<digits>)` occurrence of the
line (the decomposition below has no further occurrence after it), the
original title is the line itself, and the tags are the ordered list of
*all* bracket-group contents appearing anywhere in the line when the tagged
pattern accepted the line — not only those preceding the first non-bracket
text — and the empty list otherwise. -/
theorem read_pr_line_spec (line : List Char) (e : PREntry)
    (h : read_pr_line line = some e) :
    (∃ a b, line = a ++ '(' :: '#' :: (e.number ++ ')' :: b) ∧
      findHashes b = [] ∧ e.number ≠ [] ∧ e.number.all Char.isDigit) ∧
    e.original_title = line ∧
    e.tags = (if matchesWithTags line then findBrackets line else []) := by
  unfold read_pr_line at h
  split at h
  · rename_i hm
    injection h with h
    subst h
    refine ⟨?_, rfl, by rw [if_pos hm]⟩
    have hfh : findHashes line ≠ [] :=
      hashAfterRB_findHashes_ne_nil (by simp only [matchesWithTags, Bool.and_eq_true] at hm; exact hm.2)
    cases hds : (findHashes line).getLast? with
    | none => exact absurd (by simpa using hds) hfh
    | some ds =>
      obtain ⟨a, b, hab, hb, hne, hdig⟩ := findHashes_getLast hds
      refine ⟨a, b, ?_, hb, ?_, ?_⟩ <;>
        simp only [lastHashNumber, hds, Option.getD_some] <;>
        assumption
  · split at h
    · rename_i hm hacc
      injection h with h
      subst h
      refine ⟨?_, rfl, by rw [if_neg hm]⟩
      have hfh : findHashes line ≠ [] := by
        simp only [Bool.and_eq_true] at hacc
        simpa [List.isEmpty_iff] using hacc.2
      cases hds : (findHashes line).getLast? with
      | none => exact absurd (by simpa using hds) hfh
      | some ds =>
        obtain ⟨a, b, hab, hb, hne, hdig⟩ := findHashes_getLast hds
        refine ⟨a, b, ?_, hb, ?_, ?_⟩ <;>
          simp only [lastHashNumber, hds, Option.getD_some] <;>
          assumption
    · cases h

/-- Witness for C1 (amended) at the accepted line `[x] y (#7)`. -/
theorem read_pr_line_spec_witness :
    (∃ a b, "[x] y (#7)".toList =
        a ++ '(' :: '#' :: ("7".toList ++ ')' :: b) ∧
      findHashes b = [] ∧ "7".toList ≠ [] ∧ "7".toList.all Char.isDigit) ∧
    "[x] y (#7)".toList = "[x] y (#7)".toList ∧
    ["x".toList] =
      (if matchesWithTags "[x] y (#7)".toList
        then findBrackets "[x] y (#7)".toList else []) :=
  read_pr_line_spec "[x] y (#7)".toList
    ⟨"7".toList, "[x] y (#7)".toList, ["x".toList]⟩ (by decide)

/-! ## Claim C3 -/

/-- Modelled from the claim's words (refinement reference, not from the
code): case-insensitive comparison of the normalized header text against the
fixed title table. -/
def lookupMappingCI (title : List Char) : Option (List Char) :=
  (categoryMapping.find? (fun p => lowerStr p.1 == lowerStr title)).map (·.2)

/-- **C3 counterexample**: the header `## bug fixes:` matches the table entry
`Bug Fixes` under the claim's case-insensitive comparison, yet the parser
recognizes no category for it and drops the following well-formed bullet:
the resulting map is entirely empty.  `category_mapping.get` compares
case-sensitively. -/
theorem header_case_counterexample :
    lookupMappingCI "bug fixes".toList = some "bug_fixes".toList ∧
    lookupMapping "bug fixes".toList = none ∧
    parse_ollama_response "## bug fixes:\n- Fixes stuff (#1)".toList =
      categoriesInit ∧
    getD (parse_ollama_response "## bug fixes:\n- Fixes stuff (#1)".toList)
      "bug_fixes".toList = [] :=
  ⟨by decide, by decide, by decide, by decide⟩

theorem find?_map_snd_of_nodup_keys (m : List (List Char × List Char))
    (hnd : (m.map Prod.fst).Nodup) (t k : List Char) :
    (m.find? (fun p => p.1 == t)).map (·.2) = some k ↔ (t, k) ∈ m := by
  induction m with
  | nil => simp
  | cons p m ih =>
    simp only [List.map_cons, List.nodup_cons] at hnd
    obtain ⟨hp, hnd'⟩ := hnd
    by_cases h : p.1 = t
    · rw [List.find?_cons_of_pos _ (by simp [h])]
      simp only [Option.map_some', Option.some_inj]
      constructor
      · intro hk
        have hpk : p = (t, k) := Prod.ext h hk
        rw [← hpk]
        exact List.mem_cons_self _ _
      · intro hk
        rcases List.mem_cons.mp hk with heq | hmem
        · rw [← heq]
        · exact absurd (List.mem_map.mpr ⟨(t, k), hmem, rfl⟩) (h ▸ hp)
    · rw [List.find?_cons_of_neg _ (by simp [h])]
      rw [ih hnd']
      constructor
      · exact fun hm => List.mem_cons_of_mem _ hm
      · intro hm
        rcases List.mem_cons.mp hm with heq | hmem
        · exact absurd (congrArg Prod.fst heq.symm) h
        · exact hmem

theorem hash_not_prefix_dash (t : List Char) :
    "## ".toList.isPrefixOf ('-' :: ' ' :: t) = false := rfl

/-- **C3 (amended)**: a response line beginning (after stripping) with the
section-header marker sets the state to the *case-sensitive, exact* lookup —
after removing trailing colons and surrounding whitespace — of the header
text in the fixed table; that lookup succeeds exactly for the eight exact
titles, so an unrecognized header (including case variants) leaves no active
category; and while no category is active, bullet lines are dropped: state
and map are unchanged. -/
theorem parse_header_state_spec :
    (∀ (st : Option (List Char) × CategoryMap) (line : List Char),
      "## ".toList.isPrefixOf (pstrip line) = true →
      parseStep st line =
        (lookupMapping (pstrip (rstripColon ((pstrip line).drop 3))), st.2)) ∧
    (∀ t k, lookupMapping t = some k ↔ (t, k) ∈ categoryMapping) ∧
    (∀ (cats : CategoryMap) (line : List Char),
      "- ".toList.isPrefixOf (pstrip line) = true →
      parseStep (none, cats) line = (none, cats)) := by
  refine ⟨?_, ?_, ?_⟩
  · intro st line h
    unfold parseStep
    dsimp only
    rw [if_pos h]
  · intro t k
    unfold lookupMapping
    exact find?_map_snd_of_nodup_keys categoryMapping (by decide) t k
  · intro cats line hb
    unfold parseStep
    dsimp only
    obtain ⟨t, ht⟩ := List.isPrefixOf_iff_prefix.mp hb
    have hhdr : "## ".toList.isPrefixOf (pstrip line) = false := by
      rw [← ht]
      exact hash_not_prefix_dash t
    rw [hhdr]
    simp only [Bool.false_eq_true, if_false, hb, if_true]
    cases bulletMatch (pstrip line) <;> rfl

/-- Witness for C3 (amended): a recognized header, a table lookup, and a
dropped bullet with no active category. -/
theorem parse_header_state_spec_witness :
    parseStep (none, categoriesInit) "## Improvements:".toList =
      (lookupMapping (pstrip (rstripColon
        ((pstrip "## Improvements:".toList).drop 3))), categoriesInit) ∧
    (lookupMapping "Bug Fixes".toList = some "bug_fixes".toList ↔
      ("Bug Fixes".toList, "bug_fixes".toList) ∈ categoryMapping) ∧
    parseStep (none, categoriesInit) "- Fix it (#1)".toList =
      (none, categoriesInit) :=
  ⟨parse_header_state_spec.1 (none, categoriesInit) _ (by decide),
   parse_header_state_spec.2.1 _ _,
   parse_header_state_spec.2.2 categoriesInit _ (by decide)⟩

/-! ## Claim C2: scanner compositionality lemmas -/

/-- Characters that can appear in no `\(#(\d+)\)` match: appending text after
such a character cannot create or destroy matches before it. -/
def hashSafe (c : Char) : Prop :=
  c ≠ '(' ∧ c ≠ '#' ∧ c ≠ ')' ∧ c.isDigit = false

theorem matchHashAt_ne_lparen {c : Char} (h : c ≠ '(') (cs : List Char) :
    matchHashAt (c :: cs) = none := by
  rw [matchHashAt.eq_def]
  split
  · rename_i r heq
    injection heq with h1
    exact absurd h1 h
  · rfl

theorem matchHashAt_lparen_ne_hash {c : Char} (h : c ≠ '#') (cs : List Char) :
    matchHashAt ('(' :: c :: cs) = none := by
  rw [matchHashAt.eq_def]
  split
  · rename_i r heq
    injection heq with h1 h2
    injection h2 with h2
    exact absurd h2 h
  · rfl

theorem matchHashAt_eqn (r : List Char) :
    matchHashAt ('(' :: '#' :: r) =
      if (r.takeWhile Char.isDigit).isEmpty then none
      else
        match r.dropWhile Char.isDigit with
        | ')' :: _ => some (r.takeWhile Char.isDigit)
        | _ => none := rfl

theorem takeWhile_append_sep {p : Char → Bool} {sep : Char} (h : p sep = false)
    (r b : List Char) : (r ++ sep :: b).takeWhile p = r.takeWhile p := by
  induction r with
  | nil => simp [List.takeWhile_cons, h]
  | cons c r ih =>
    by_cases hc : p c <;> simp [List.takeWhile_cons, hc, ih]

theorem dropWhile_append_sep {p : Char → Bool} {sep : Char} (h : p sep = false)
    (r b : List Char) : (r ++ sep :: b).dropWhile p = r.dropWhile p ++ sep :: b := by
  induction r with
  | nil => simp [List.dropWhile_cons, h]
  | cons c r ih =>
    by_cases hc : p c <;> simp [List.dropWhile_cons, hc, ih]

theorem matchHashAt_append_sep {sep : Char} (hs : hashSafe sep) (a b : List Char) :
    matchHashAt (a ++ sep :: b) = matchHashAt a := by
  obtain ⟨h1, h2, h3, h4⟩ := hs
  match a with
  | [] =>
    rw [List.nil_append, matchHashAt_ne_lparen h1 b]
    rfl
  | ['('] =>
    rw [List.cons_append, List.nil_append, matchHashAt_lparen_ne_hash h2 b]
    rfl
  | [c] =>
    by_cases hc : c = '('
    · subst hc
      rw [List.cons_append, List.nil_append, matchHashAt_lparen_ne_hash h2 b]
      rfl
    · rw [List.cons_append, List.nil_append, matchHashAt_ne_lparen hc (sep :: b),
        matchHashAt_ne_lparen hc []]
  | c :: d :: r =>
    by_cases hc : c = '('
    · subst hc
      by_cases hd : d = '#'
      · subst hd
        rw [List.cons_append, List.cons_append, matchHashAt_eqn, matchHashAt_eqn,
          takeWhile_append_sep h4 r b, dropWhile_append_sep h4 r b]
        by_cases he : (r.takeWhile Char.isDigit).isEmpty
        · rw [if_pos he, if_pos he]
        · rw [if_neg he, if_neg he]
          cases hdr : r.dropWhile Char.isDigit with
          | nil =>
            rw [List.nil_append]
            split
            · rename_i heq
              injection heq with h5
              exact absurd h5 h3
            · rfl
          | cons e rest =>
            rw [List.cons_append]
            by_cases hep : e = ')'
            · subst hep; rfl
            · split
              · rename_i heq
                injection heq with h5
                exact absurd h5 hep
              · split
                · rename_i heq
                  injection heq with h5
                  exact absurd h5 hep
                · rfl
      · rw [List.cons_append, List.cons_append, matchHashAt_lparen_ne_hash hd (r ++ sep :: b),
          matchHashAt_lparen_ne_hash hd r]
    · rw [List.cons_append, matchHashAt_ne_lparen hc (d :: r ++ sep :: b),
        matchHashAt_ne_lparen hc (d :: r)]

theorem findHashes_append_sep {sep : Char} (hs : hashSafe sep) (a b : List Char) :
    findHashes (a ++ sep :: b) = findHashes a ++ findHashes b := by
  induction a with
  | nil =>
    rw [List.nil_append, findHashes_cons_none (matchHashAt_ne_lparen hs.1 b)]
    rfl
  | cons c a ih =>
    rw [List.cons_append]
    cases hm : matchHashAt (c :: (a ++ sep :: b)) with
    | some ds =>
      have hm' : matchHashAt (c :: a) = some ds :=
        (matchHashAt_append_sep hs (c :: a) b).symm.trans hm
      rw [findHashes_cons_some hm, findHashes_cons_some hm', ih, List.cons_append]
    | none =>
      have hm' : matchHashAt (c :: a) = none :=
        (matchHashAt_append_sep hs (c :: a) b).symm.trans hm
      rw [findHashes_cons_none hm, findHashes_cons_none hm', ih]

theorem findHashes_nil_of_no_lparen {u : List Char} (h : ∀ c ∈ u, c ≠ '(') :
    findHashes u = [] := by
  induction u with
  | nil => rfl
  | cons c u ih =>
    rw [findHashes_cons_none (matchHashAt_ne_lparen (h c (List.mem_cons_self ..)) u)]
    exact ih (fun d hd => h d (List.mem_cons_of_mem _ hd))

theorem findHashes_append_safe {u : List Char} (h : ∀ c ∈ u, hashSafe c)
    (a : List Char) : findHashes (a ++ u) = findHashes a := by
  cases u with
  | nil => simp
  | cons sep u =>
    rw [findHashes_append_sep (h sep (List.mem_cons_self ..)) a u,
      findHashes_nil_of_no_lparen (fun c hc => (h c (List.mem_cons_of_mem _ hc)).1)]
    simp

theorem hashSafe_of_isWhitespace {c : Char} (h : c.isWhitespace = true) :
    hashSafe c := by
  have hd : c = ' ' ∨ c = '\t' ∨ c = '\r' ∨ c = '\n' := by
    simpa [Char.isWhitespace, or_assoc] using h
  rcases hd with rfl | rfl | rfl | rfl <;>
    exact ⟨by decide, by decide, by decide, by decide⟩

theorem findHashes_dropWhileWs (x : List Char) :
    findHashes (x.dropWhile Char.isWhitespace) = findHashes x := by
  induction x with
  | nil => rfl
  | cons c x ih =>
    by_cases hc : c.isWhitespace
    · rw [List.dropWhile_cons, if_pos hc, ih,
        findHashes_cons_none (matchHashAt_ne_lparen (hashSafe_of_isWhitespace hc).1 x)]
    · rw [List.dropWhile_cons, if_neg hc]

theorem rdropWhile_append_rtakeWhile (p : Char → Bool) (l : List Char) :
    l.rdropWhile p ++ l.rtakeWhile p = l := by
  rw [List.rdropWhile, List.rtakeWhile, ← List.reverse_append,
    List.takeWhile_append_dropWhile, List.reverse_reverse]

theorem findHashes_rdropWhileWs (x : List Char) :
    findHashes (x.rdropWhile Char.isWhitespace) = findHashes x := by
  conv_rhs => rw [← rdropWhile_append_rtakeWhile Char.isWhitespace x]
  rw [findHashes_append_safe]
  intro c hc
  exact hashSafe_of_isWhitespace (List.mem_rtakeWhile_imp hc)

theorem findHashes_pstrip (x : List Char) :
    findHashes (pstrip x) = findHashes x := by
  unfold pstrip rstripWs lstripWs
  rw [findHashes_rdropWhileWs, findHashes_dropWhileWs]

theorem slGo_findHashes : ∀ (cs acc : List Char),
    ((slGo acc cs).map findHashes).flatten = findHashes (acc ++ cs) := by
  intro cs
  induction cs with
  | nil => intro acc; simp [slGo]
  | cons c cs ih =>
    intro acc
    by_cases hc : c = '\n'
    · subst hc
      rw [slGo.eq_def]
      dsimp only
      rw [if_pos rfl]
      cases cs with
      | nil =>
        simp only [List.map_cons, List.map_nil, List.flatten_cons,
          List.flatten_nil, List.append_nil]
        exact (findHashes_append_safe
          (fun d hd => by
            rw [List.mem_singleton] at hd
            subst hd
            exact hashSafe_of_isWhitespace (by decide)) acc).symm
      | cons d cs' =>
        simp only [List.map_cons, List.flatten_cons]
        rw [ih [], findHashes_append_sep
          (hashSafe_of_isWhitespace (by decide)) acc (d :: cs')]
        simp
    · rw [slGo.eq_def]
      dsimp only
      rw [if_neg hc, ih (acc ++ [c]), List.append_assoc]
      rfl

/-- Bridge: per-line extraction over `splitlines` equals scanning the whole
text — a `\(#(\d+)\)` occurrence never spans a newline. -/
theorem extract_eq_findHashes (text : List Char) :
    extract_pr_numbers text = findHashes text := by
  cases text with
  | nil => rfl
  | cons c cs => exact slGo_findHashes (c :: cs) []

theorem findHashes_prefix_no_lparen {u : List Char} (h : ∀ c ∈ u, c ≠ '(')
    (v : List Char) : findHashes (u ++ v) = findHashes v := by
  induction u with
  | nil => rfl
  | cons c u ih =>
    rw [List.cons_append,
      findHashes_cons_none (matchHashAt_ne_lparen (h c (List.mem_cons_self ..)) _)]
    exact ih (fun d hd => h d (List.mem_cons_of_mem _ hd))

theorem digit_ne_lparen {c : Char} (h : c.isDigit = true) : c ≠ '(' := by
  intro hc
  subst hc
  exact absurd h (by decide)

/-- Scanning one rendered `(#<number>)` group at the head: the digit group is
recovered and scanning continues after it. -/
theorem findHashes_hash_group {n : List Char} (hne : n ≠ [])
    (hdig : n.all Char.isDigit = true) (tail : List Char) :
    findHashes ('(' :: '#' :: (n ++ ')' :: tail)) =
      n :: findHashes (')' :: tail) := by
  have hAll : ∀ c ∈ n, Char.isDigit c = true := List.all_eq_true.mp hdig
  have htake : (n ++ ')' :: tail).takeWhile Char.isDigit = n := by
    rw [takeWhile_append_sep (by decide) n tail]
    exact List.takeWhile_eq_self_iff.mpr hAll
  have hdrop : (n ++ ')' :: tail).dropWhile Char.isDigit = ')' :: tail := by
    rw [dropWhile_append_sep (by decide) n tail,
      List.dropWhile_eq_nil_iff.mpr hAll, List.nil_append]
  have hm : matchHashAt ('(' :: '#' :: (n ++ ')' :: tail)) = some n := by
    rw [matchHashAt_eqn, htake, hdrop,
      if_neg (by simpa [List.isEmpty_iff] using hne)]
    rfl
  rw [findHashes_cons_some hm]
  congr 1
  show findHashes (('#' :: n) ++ ')' :: tail) = _
  rw [findHashes_prefix_no_lparen ?_ (')' :: tail)]
  intro c hc
  rcases List.mem_cons.mp hc with rfl | hcn
  · decide
  · exact digit_ne_lparen (hAll c hcn)

/-- Scanning one rendered bullet line followed by arbitrary further text:
exactly the entry's PR number is extracted from the line. -/
theorem findHashes_entry_line {e : CatEntry} (hne : e.pr_number ≠ [])
    (hdig : e.pr_number.all Char.isDigit = true)
    (hsum : findHashes e.summary = []) (rest : List Char) :
    findHashes ('-' :: ' ' :: (e.summary ++ ' ' :: '(' :: '#' ::
        (e.pr_number ++ ')' :: '.' :: '\n' :: rest))) =
      e.pr_number :: findHashes rest := by
  show findHashes (['-', ' '] ++ (e.summary ++ ' ' :: '(' :: '#' ::
    (e.pr_number ++ ')' :: '.' :: '\n' :: rest))) = _
  rw [findHashes_prefix_no_lparen (by decide) _]
  rw [findHashes_append_sep ⟨by decide, by decide, by decide, by decide⟩
    e.summary _]
  rw [hsum, List.nil_append]
  rw [findHashes_hash_group hne hdig ('.' :: '\n' :: rest)]
  congr 1

theorem renderEntry_append (e : CatEntry) (X : List Char) :
    renderEntry false e ++ X =
      '-' :: ' ' :: (e.summary ++ ' ' :: '(' :: '#' ::
        (e.pr_number ++ ')' :: '.' :: '\n' :: X)) := by
  simp [renderEntry, List.append_assoc]

theorem findHashes_entries_append {es : List CatEntry}
    (h : ∀ e ∈ es, e.pr_number ≠ [] ∧ e.pr_number.all Char.isDigit = true ∧
      findHashes e.summary = []) (rest : List Char) :
    findHashes ((es.map (renderEntry false)).flatten ++ rest) =
      es.map (·.pr_number) ++ findHashes rest := by
  induction es with
  | nil => simp
  | cons e es ih =>
    obtain ⟨h1, h2, h3⟩ := h e (List.mem_cons_self ..)
    have hrec := ih (fun x hx => h x (List.mem_cons_of_mem _ hx))
    rw [List.map_cons, List.flatten_cons, List.append_assoc, renderEntry_append,
      findHashes_entry_line h1 h2 h3, hrec]
    rfl

theorem renderBlock_nil {cats : CategoryMap} {k : List Char}
    (h : getD cats k = []) : renderBlock cats false k = [] := by
  simp only [renderBlock, h]

theorem renderBlock_append {cats : CategoryMap} {k : List Char}
    (h : getD cats k ≠ []) (X : List Char) :
    renderBlock cats false k ++ X =
      '#' :: '#' :: ' ' :: (categoryTitle k ++ ':' :: '\n' ::
        (((getD cats k).map (renderEntry false)).flatten ++ '\n' :: X)) := by
  cases hg : getD cats k with
  | nil => exact absurd hg h
  | cons e es =>
    simp only [renderBlock, hg]
    simp [List.append_assoc]

theorem findHashes_blocks_append (cats : CategoryMap) {ks : List (List Char)}
    (htitle : ∀ k ∈ ks, ∀ c ∈ categoryTitle k, c ≠ '(')
    (hent : ∀ k ∈ ks, ∀ e ∈ getD cats k, e.pr_number ≠ [] ∧
      e.pr_number.all Char.isDigit = true ∧ findHashes e.summary = [])
    (rest : List Char) :
    findHashes ((ks.map (renderBlock cats false)).flatten ++ rest) =
      (ks.map (fun k => (getD cats k).map (·.pr_number))).flatten ++
        findHashes rest := by
  induction ks with
  | nil => simp
  | cons k ks ih =>
    have hrec := ih (fun x hx => htitle x (List.mem_cons_of_mem _ hx))
      (fun x hx => hent x (List.mem_cons_of_mem _ hx))
    rw [List.map_cons, List.flatten_cons, List.append_assoc]
    by_cases hk : getD cats k = []
    · rw [renderBlock_nil hk, List.nil_append, hrec, List.map_cons, hk]
      simp
    · rw [renderBlock_append hk]
      rw [findHashes_cons_none (matchHashAt_ne_lparen (by decide) _),
        findHashes_cons_none (matchHashAt_ne_lparen (by decide) _),
        findHashes_cons_none (matchHashAt_ne_lparen (by decide) _),
        findHashes_append_sep ⟨by decide, by decide, by decide, by decide⟩
          (categoryTitle k) _,
        findHashes_nil_of_no_lparen (htitle k (List.mem_cons_self ..)),
        List.nil_append,
        findHashes_cons_none (matchHashAt_ne_lparen (by decide) _),
        findHashes_entries_append (hent k (List.mem_cons_self ..)),
        findHashes_cons_none (matchHashAt_ne_lparen (by decide) _),
        hrec, List.map_cons, List.flatten_cons, List.append_assoc]

theorem map_values_of_keys {β : Type} (f : List CatEntry → β) :
    ∀ (cats : CategoryMap) (K : List (List Char)), cats.map Prod.fst = K →
      K.Nodup → K.map (fun k => f (getD cats k)) = cats.map (fun p => f p.2) := by
  intro cats
  induction cats with
  | nil =>
    intro K hK _
    rw [← hK]
    rfl
  | cons p cats ih =>
    intro K hK hnd
    rw [← hK] at hnd ⊢
    simp only [List.map_cons] at hnd ⊢
    obtain ⟨hp, hnd'⟩ := List.nodup_cons.mp hnd
    congr 1
    · have : getD (p :: cats) p.1 = p.2 := by
        unfold getD
        rw [List.find?_cons_of_pos _ (by simp)]
      rw [this]
    · rw [← ih (cats.map Prod.fst) rfl hnd']
      apply List.map_congr_left
      intro k hk
      have hne : p.1 ≠ k := fun he => hp (he ▸ hk)
      have : getD (p :: cats) k = getD cats k := by
        unfold getD
        rw [List.find?_cons_of_neg _ (by simp [hne])]
      rw [this]

/-- **C2 counterexample**: a `CategoryMap` whose single entry has summary
`See (#999) note` and number `123` renders to a bullet from which the
extraction also recovers `999` — a PR number not present in the map — so the
claimed set equality fails for this map. -/
theorem render_roundtrip_counterexample :
    "999".toList ∈ extract_pr_numbers (generate_markdown
      (appendAt categoriesInit "bug_fixes".toList
        ⟨"See (#999) note".toList, "123".toList⟩) false) ∧
    "999".toList ∉ ((appendAt categoriesInit "bug_fixes".toList
        ⟨"See (#999) note".toList, "123".toList⟩).map
      (fun p => p.2.map (·.pr_number))).flatten :=
  ⟨by decide, by decide⟩

/-- **C2 (amended)**: for every `CategoryMap` carrying exactly the eight
category keys whose PR numbers are nonempty digit strings and whose
summaries contain no `\(#(\d+)\)` occurrence, rendering without URLs and
re-extracting per line recovers exactly the list of PR numbers of the map
(in rendering order), hence exactly its set of PR numbers. -/
theorem render_extract_roundtrip (cats : CategoryMap)
    (hkeys : cats.map Prod.fst = categoryOrder)
    (hent : ∀ p ∈ cats, ∀ e ∈ p.2, e.pr_number ≠ [] ∧
      e.pr_number.all Char.isDigit = true ∧ findHashes e.summary = []) :
    extract_pr_numbers (generate_markdown cats false) =
      (cats.map (fun p => p.2.map (·.pr_number))).flatten ∧
    ∀ n, n ∈ extract_pr_numbers (generate_markdown cats false) ↔
      ∃ p ∈ cats, ∃ e ∈ p.2, e.pr_number = n := by
  have hent' : ∀ k ∈ categoryOrder, ∀ e ∈ getD cats k, e.pr_number ≠ [] ∧
      e.pr_number.all Char.isDigit = true ∧ findHashes e.summary = [] := by
    intro k hkmem e he
    unfold getD at he
    cases hf : cats.find? (fun p => p.1 == k) with
    | none => rw [hf] at he; cases he
    | some p =>
      rw [hf] at he
      exact hent p (List.mem_of_find?_eq_some hf) e he
  have hmain : extract_pr_numbers (generate_markdown cats false) =
      (cats.map (fun p => p.2.map (·.pr_number))).flatten := by
    rw [extract_eq_findHashes]
    unfold generate_markdown
    rw [findHashes_pstrip,
      ← List.append_nil ((categoryOrder.map (renderBlock cats false)).flatten),
      findHashes_blocks_append cats (by decide) hent' [],
      map_values_of_keys (fun v => v.map (·.pr_number)) cats categoryOrder
        hkeys (by decide)]
    simp [findHashes]
  refine ⟨hmain, ?_⟩
  intro n
  rw [hmain]
  simp only [List.mem_flatten, List.mem_map]
  constructor
  · rintro ⟨l, ⟨p, hp, rfl⟩, hn⟩
    obtain ⟨e, he, hne⟩ := List.mem_map.mp hn
    exact ⟨p, hp, e, he, hne⟩
  · rintro ⟨p, hp, e, he, hne⟩
    exact ⟨p.2.map (·.pr_number), ⟨p, hp, rfl⟩, List.mem_map.mpr ⟨e, he, hne⟩⟩

/-- Witness for C2 (amended) at a one-entry map with a clean summary. -/
theorem render_extract_roundtrip_witness :
    extract_pr_numbers (generate_markdown
        (appendAt categoriesInit "bug_fixes".toList
          ⟨"Fixes a crash".toList, "123".toList⟩) false) =
      ((appendAt categoriesInit "bug_fixes".toList
          ⟨"Fixes a crash".toList, "123".toList⟩).map
        (fun p => p.2.map (·.pr_number))).flatten ∧
    ∀ n, n ∈ extract_pr_numbers (generate_markdown
        (appendAt categoriesInit "bug_fixes".toList
          ⟨"Fixes a crash".toList, "123".toList⟩) false) ↔
      ∃ p ∈ appendAt categoriesInit "bug_fixes".toList
          ⟨"Fixes a crash".toList, "123".toList⟩,
        ∃ e ∈ p.2, e.pr_number = n :=
  render_extract_roundtrip _ (by decide) (by decide)

/-! ## Claim C4 -/

/-- **C4 counterexample**: on the single bullet line `- [a] \t- foo`, the
first pass rewrites the line to `- [a] - foo` (the tab hid the inner dash
from `lstrip('- ')`), and the second pass strips the now-leading dash again,
producing `- [a] foo`: the second run changes the line, refuting
idempotence. -/
theorem clean_tags_counterexample :
    clean_tags ["- [a] \t- foo".toList] = ["- [a] - foo".toList] ∧
    clean_tags (clean_tags ["- [a] \t- foo".toList]) = ["- [a] foo".toList] ∧
    clean_tags (clean_tags ["- [a] \t- foo".toList]) ≠
      clean_tags ["- [a] \t- foo".toList] :=
  ⟨by decide, by decide, by decide⟩

/-! ### Strip facts -/

theorem pstrip_nil : pstrip [] = [] := rfl

theorem dropWhile_head_not {p : Char → Bool} {x : List Char} {d : Char}
    (h : (x.dropWhile p).head? = some d) : p d = false := by
  induction x with
  | nil => cases h
  | cons c x ih =>
    rw [List.dropWhile_cons] at h
    by_cases hc : p c
    · rw [if_pos hc] at h
      exact ih h
    · rw [if_neg hc] at h
      injection h with h
      subst h
      exact Bool.not_eq_true _ ▸ (by simpa using hc)

theorem dropWhile_eq_self_of_head {p : Char → Bool} {x : List Char}
    (h : ∀ d, x.head? = some d → p d = false) : x.dropWhile p = x := by
  cases x with
  | nil => rfl
  | cons c x =>
    rw [List.dropWhile_cons, if_neg]
    rw [h c rfl]
    simp

theorem head?_append_left {x y : List Char} {d : Char} (h : x.head? = some d) :
    (x ++ y).head? = some d := by
  cases x with
  | nil => cases h
  | cons c x => simpa using h

theorem rdropWhile_head? {p : Char → Bool} {x : List Char} {d : Char}
    (h : (x.rdropWhile p).head? = some d) : x.head? = some d := by
  obtain ⟨t, ht⟩ := List.rdropWhile_prefix (l := x) p
  rw [← ht]
  exact head?_append_left h

theorem pstrip_head_not_ws {x : List Char} {d : Char}
    (h : (pstrip x).head? = some d) : d.isWhitespace = false := by
  unfold pstrip rstripWs lstripWs at h
  exact dropWhile_head_not (rdropWhile_head? h)

theorem rdropWhile_eq_self_of_getLast {p : Char → Bool} {x : List Char}
    (h : ∀ d, x.getLast? = some d → p d = false) : x.rdropWhile p = x := by
  rw [List.rdropWhile_eq_self_iff]
  intro hx
  rw [h (x.getLast hx) (List.getLast?_eq_getLast x hx)]
  simp

theorem pstrip_getLast_not_ws {x : List Char} {d : Char}
    (h : (pstrip x).getLast? = some d) : d.isWhitespace = false := by
  unfold pstrip rstripWs at h
  have hne : (lstripWs x).rdropWhile Char.isWhitespace ≠ [] := by
    intro hc
    rw [hc] at h
    cases h
  have := List.rdropWhile_last_not (l := lstripWs x) (p := Char.isWhitespace) hne
  rw [List.getLast?_eq_getLast _ hne] at h
  injection h with h
  subst h
  simpa using this

theorem pstrip_idem (x : List Char) : pstrip (pstrip x) = pstrip x := by
  cases hx : pstrip x with
  | nil => rfl
  | cons c y =>
    show rstripWs (lstripWs (c :: y)) = c :: y
    have hh : Char.isWhitespace c = false := by
      have := pstrip_head_not_ws (x := x) (d := c) (by rw [hx]; rfl)
      exact this
    have h1 : lstripWs (c :: y) = c :: y := by
      unfold lstripWs
      exact dropWhile_eq_self_of_head (fun d hd => by
        injection hd with hd
        subst hd
        exact hh)
    rw [h1]
    unfold rstripWs
    apply rdropWhile_eq_self_of_getLast
    intro d hd
    exact pstrip_getLast_not_ws (x := x) (by rw [hx]; exact hd)

theorem pstrip_eq_self {x : List Char}
    (hh : ∀ d, x.head? = some d → d.isWhitespace = false)
    (hl : ∀ d, x.getLast? = some d → d.isWhitespace = false) :
    pstrip x = x := by
  unfold pstrip lstripWs rstripWs
  rw [dropWhile_eq_self_of_head hh, rdropWhile_eq_self_of_getLast hl]

theorem mem_pstrip {x : List Char} {c : Char} (h : c ∈ pstrip x) : c ∈ x := by
  unfold pstrip rstripWs lstripWs at h
  obtain ⟨t, ht⟩ := List.rdropWhile_prefix
    (l := x.dropWhile Char.isWhitespace) Char.isWhitespace
  have h2 : c ∈ x.dropWhile Char.isWhitespace := by
    rw [← ht]
    exact List.mem_append_left _ h
  exact List.dropWhile_subset _ h2

/-! ### Bracket-structure facts -/

/-- Text with no complete bracket group: a part without `[` followed by a
part without `]` (equivalently, every `[` comes after every `]`). -/
def NoPair (s : List Char) : Prop :=
  ∃ p q, s = p ++ q ∧ '[' ∉ p ∧ ']' ∉ q

theorem noPair_nil : NoPair [] := ⟨[], [], rfl, by simp, by simp⟩

theorem noPair_cons {c : Char} {s : List Char} (hc : c ≠ '[') (h : NoPair s) :
    NoPair (c :: s) := by
  obtain ⟨p, q, rfl, hp, hq⟩ := h
  refine ⟨c :: p, q, rfl, ?_, hq⟩
  intro hmem
  rcases List.mem_cons.mp hmem with heq | hin
  · exact hc heq.symm
  · exact hp hin

theorem noPair_of_no_rb {s : List Char} (h : ']' ∉ s) : NoPair s :=
  ⟨[], s, rfl, by simp, h⟩

theorem noPair_drop {s : List Char} (h : NoPair s) (n : Nat) :
    NoPair (s.drop n) := by
  obtain ⟨p, q, rfl, hp, hq⟩ := h
  refine ⟨p.drop n, q.drop (n - p.length), List.drop_append_eq_append_drop, ?_, ?_⟩
  · exact fun hc => hp (List.drop_subset _ _ hc)
  · exact fun hc => hq (List.drop_subset _ _ hc)

theorem noPair_take {s : List Char} (h : NoPair s) (n : Nat) :
    NoPair (s.take n) := by
  obtain ⟨p, q, rfl, hp, hq⟩ := h
  refine ⟨p.take n, q.take (n - p.length), List.take_append_eq_append_take, ?_, ?_⟩
  · exact fun hc => hp (List.take_subset _ _ hc)
  · exact fun hc => hq (List.take_subset _ _ hc)

theorem noPair_suffix {s t : List Char} (h : NoPair s) (ht : t <:+ s) :
    NoPair t := by
  obtain ⟨u, rfl⟩ := ht
  have := noPair_drop h u.length
  simpa using this

theorem noPair_prefix {s t : List Char} (h : NoPair s) (ht : t <+: s) :
    NoPair t := by
  obtain ⟨u, rfl⟩ := ht
  have := noPair_take h t.length
  simpa using this

theorem noPair_dropWhile {p : Char → Bool} {s : List Char} (h : NoPair s) :
    NoPair (s.dropWhile p) :=
  noPair_suffix h (List.dropWhile_suffix p)

theorem noPair_rdropWhile {p : Char → Bool} {s : List Char} (h : NoPair s) :
    NoPair (s.rdropWhile p) :=
  noPair_prefix h (List.rdropWhile_prefix p s)

theorem noPair_pstrip {s : List Char} (h : NoPair s) : NoPair (pstrip s) :=
  noPair_rdropWhile (noPair_dropWhile h)


/-! ### Bracket state-machine facts -/

theorem sbGo_some_no_rb {s : List Char} (h : ']' ∉ s) :
    ∀ acc, sbGo (some acc) s = '[' :: (acc ++ s) := by
  induction s with
  | nil => intro acc; simp [sbGo]
  | cons c cs ih =>
    intro acc
    have hc : c ≠ ']' := fun he => h (he ▸ List.mem_cons_self ..)
    rw [sbGo, if_neg hc, ih (fun hm => h (List.mem_cons_of_mem _ hm))]
    simp

theorem noPair_sbGo : ∀ (s : List Char) (st : Option (List Char)),
    (∀ acc, st = some acc → ']' ∉ acc) → NoPair (sbGo st s) := by
  intro s
  induction s with
  | nil =>
    intro st hst
    cases st with
    | none => exact noPair_nil
    | some acc =>
      apply noPair_of_no_rb
      intro hm
      rcases List.mem_cons.mp hm with heq | hin
      · cases heq
      · exact hst acc rfl hin
  | cons c cs ih =>
    intro st hst
    cases st with
    | none =>
      by_cases hc : c = '['
      · rw [sbGo, if_pos hc]
        exact ih (some []) (by intro acc hacc; injection hacc with h; subst h; simp)
      · rw [sbGo, if_neg hc]
        exact noPair_cons hc (ih none (by intro acc hacc; cases hacc))
    | some acc =>
      by_cases hc : c = ']'
      · rw [sbGo, if_pos hc]
        exact ih none (by intro a ha; cases ha)
      · rw [sbGo, if_neg hc]
        apply ih (some (acc ++ [c]))
        intro a ha
        injection ha with ha
        subst ha
        intro hm
        rcases List.mem_append.mp hm with hin | hin
        · exact hst acc rfl hin
        · rw [List.mem_singleton] at hin
          exact hc hin.symm

theorem noPair_subBrackets (l : List Char) : NoPair (subBrackets l) :=
  noPair_sbGo l none (by intro acc h; cases h)

theorem fbGo_no_rb : ∀ (s : List Char) (st : Option (List Char)),
    (∀ acc, st = some acc → ']' ∉ acc) → ∀ t ∈ fbGo st s, ']' ∉ t := by
  intro s
  induction s with
  | nil =>
    intro st hst t ht
    cases st <;> cases ht
  | cons c cs ih =>
    intro st hst t ht
    cases st with
    | none =>
      by_cases hc : c = '['
      · rw [fbGo, if_pos hc] at ht
        exact ih (some []) (by intro a ha; injection ha with ha; subst ha; simp) t ht
      · rw [fbGo, if_neg hc] at ht
        exact ih none (by intro a ha; cases ha) t ht
    | some acc =>
      by_cases hc : c = ']'
      · rw [fbGo, if_pos hc] at ht
        rcases List.mem_cons.mp ht with heq | hin
        · rw [heq]; exact hst acc rfl
        · exact ih none (by intro a ha; cases ha) t hin
      · rw [fbGo, if_neg hc] at ht
        apply ih (some (acc ++ [c])) ?_ t ht
        intro a ha
        injection ha with ha
        subst ha
        intro hm
        rcases List.mem_append.mp hm with hin | hin
        · exact hst acc rfl hin
        · rw [List.mem_singleton] at hin
          exact hc hin.symm

theorem findBrackets_no_rb {l : List Char} : ∀ t ∈ findBrackets l, ']' ∉ t :=
  fbGo_no_rb l none (by intro a ha; cases ha)

theorem fbGo_some_no_rb {s : List Char} (h : ']' ∉ s) (acc : List Char) :
    fbGo (some acc) s = [] := by
  induction s generalizing acc with
  | nil => rfl
  | cons c cs ih =>
    have hc : c ≠ ']' := fun he => h (he ▸ List.mem_cons_self ..)
    rw [fbGo, if_neg hc]
    exact ih (fun hm => h (List.mem_cons_of_mem _ hm)) _

theorem fbGo_none_noPair {s : List Char} (h : NoPair s) : fbGo none s = [] := by
  obtain ⟨p, q, rfl, hp, hq⟩ := h
  induction p with
  | nil =>
    rw [List.nil_append]
    induction q with
    | nil => rfl
    | cons c cs ihq =>
      by_cases hc : c = '['
      · rw [fbGo, if_pos hc]
        exact fbGo_some_no_rb (fun hm => hq (List.mem_cons_of_mem _ hm)) []
      · rw [fbGo, if_neg hc]
        exact ihq (fun hm => hq (List.mem_cons_of_mem _ hm))
  | cons c p ihp =>
    have hc : c ≠ '[' := fun he => hp (he ▸ List.mem_cons_self ..)
    rw [List.cons_append, fbGo, if_neg hc]
    exact ihp (fun hm => hp (List.mem_cons_of_mem _ hm))

theorem sbGo_none_noPair {s : List Char} (h : NoPair s) : sbGo none s = s := by
  obtain ⟨p, q, rfl, hp, hq⟩ := h
  induction p with
  | nil =>
    rw [List.nil_append]
    induction q with
    | nil => rfl
    | cons c cs ihq =>
      by_cases hc : c = '['
      · rw [sbGo, if_pos hc,
          sbGo_some_no_rb (fun hm => hq (List.mem_cons_of_mem _ hm)) []]
        rw [hc]
        rfl
      · rw [sbGo, if_neg hc,
          ihq (fun hm => hq (List.mem_cons_of_mem _ hm))]
  | cons c p ihp =>
    have hc : c ≠ '[' := fun he => hp (he ▸ List.mem_cons_self ..)
    rw [List.cons_append, sbGo, if_neg hc,
      ihp (fun hm => hp (List.mem_cons_of_mem _ hm))]

theorem fbGo_some_close {t : List Char} (ht : ']' ∉ t) :
    ∀ (acc r : List Char),
      fbGo (some acc) (t ++ ']' :: r) = (acc ++ t) :: fbGo none r := by
  induction t with
  | nil =>
    intro acc r
    rw [List.nil_append, fbGo, if_pos rfl, List.append_nil]
  | cons c t ih =>
    intro acc r
    have hc : c ≠ ']' := fun he => ht (he ▸ List.mem_cons_self ..)
    rw [List.cons_append, fbGo, if_neg hc,
      ih (fun hm => ht (List.mem_cons_of_mem _ hm)) (acc ++ [c]) r,
      List.append_assoc]
    rfl

theorem fbGo_wrap {t : List Char} (ht : ']' ∉ t) (r : List Char) :
    fbGo none (wrapTag t ++ r) = t :: fbGo none r := by
  have hshape : wrapTag t ++ r = '[' :: (t ++ ']' :: r) := by
    simp [wrapTag, List.append_assoc]
  rw [hshape, fbGo, if_pos rfl, fbGo_some_close ht [] r, List.nil_append]

theorem sbGo_some_close {t : List Char} (ht : ']' ∉ t) :
    ∀ (acc r : List Char), sbGo (some acc) (t ++ ']' :: r) = sbGo none r := by
  induction t with
  | nil =>
    intro acc r
    rw [List.nil_append, sbGo, if_pos rfl]
  | cons c t ih =>
    intro acc r
    have hc : c ≠ ']' := fun he => ht (he ▸ List.mem_cons_self ..)
    rw [List.cons_append, sbGo, if_neg hc,
      ih (fun hm => ht (List.mem_cons_of_mem _ hm)) (acc ++ [c]) r]

theorem sbGo_wrap {t : List Char} (ht : ']' ∉ t) (r : List Char) :
    sbGo none (wrapTag t ++ r) = sbGo none r := by
  have hshape : wrapTag t ++ r = '[' :: (t ++ ']' :: r) := by
    simp [wrapTag, List.append_assoc]
  rw [hshape, sbGo, if_pos rfl, sbGo_some_close ht [] r]

theorem fbGo_none_cons_ne {c : Char} (hc : c ≠ '[') (cs : List Char) :
    fbGo none (c :: cs) = fbGo none cs := by
  rw [fbGo, if_neg hc]

theorem sbGo_none_cons_ne {c : Char} (hc : c ≠ '[') (cs : List Char) :
    sbGo none (c :: cs) = c :: sbGo none cs := by
  rw [sbGo, if_neg hc]

theorem fb_join {ts : List (List Char)} (h : ∀ t ∈ ts, ']' ∉ t)
    (suffix : List Char) :
    fbGo none (joinTags ts ++ suffix) = ts ++ fbGo none suffix := by
  induction ts with
  | nil => rfl
  | cons t ts ih =>
    cases ts with
    | nil =>
      rw [joinTags]
      simp only [List.isEmpty_nil, if_true, List.append_nil]
      rw [fbGo_wrap (h t (List.mem_cons_self ..)) suffix]
      rfl
    | cons u us =>
      rw [joinTags]
      simp only [List.isEmpty_cons, Bool.false_eq_true, if_false]
      rw [List.append_assoc, fbGo_wrap (h t (List.mem_cons_self ..)),
        List.cons_append, fbGo_none_cons_ne (by decide),
        ih (fun x hx => h x (List.mem_cons_of_mem _ hx))]
      rfl

theorem sb_join {ts : List (List Char)} (h : ∀ t ∈ ts, ']' ∉ t)
    (suffix : List Char) :
    ∃ sp, sbGo none (joinTags ts ++ suffix) = sp ++ sbGo none suffix ∧
      ∀ a ∈ sp, a = ' ' := by
  induction ts with
  | nil => exact ⟨[], rfl, by simp⟩
  | cons t ts ih =>
    cases ts with
    | nil =>
      refine ⟨[], ?_, by simp⟩
      rw [joinTags]
      simp only [List.isEmpty_nil, if_true, List.append_nil]
      rw [sbGo_wrap (h t (List.mem_cons_self ..)) suffix]
      rfl
    | cons u us =>
      obtain ⟨sp, hsp, hall⟩ := ih (fun x hx => h x (List.mem_cons_of_mem _ hx))
      refine ⟨' ' :: sp, ?_, ?_⟩
      · rw [joinTags]
        simp only [List.isEmpty_cons, Bool.false_eq_true, if_false]
        rw [List.append_assoc, sbGo_wrap (h t (List.mem_cons_self ..)),
          List.cons_append, sbGo_none_cons_ne (by decide), hsp]
        rfl
      · intro a ha
        rcases List.mem_cons.mp ha with rfl | hin
        · rfl
        · exact hall a hin

/-! ### Tag-cleaning facts -/

theorem ctGo_mem {cat : List Char} : ∀ {tags seen : List (List Char)},
    ∀ t ∈ ctGo cat seen tags, ∃ tag ∈ tags, t = pstrip tag ∧
      lowerStr t ≠ [] ∧ lowerStr t ≠ cat := by
  intro tags
  induction tags with
  | nil => intro seen t ht; cases ht
  | cons tag tags ih =>
    intro seen t ht
    rw [ctGo] at ht
    split at ht
    · obtain ⟨x, hx, hrest⟩ := ih t ht
      exact ⟨x, List.mem_cons_of_mem _ hx, hrest⟩
    · split at ht
      · obtain ⟨x, hx, hrest⟩ := ih t ht
        exact ⟨x, List.mem_cons_of_mem _ hx, hrest⟩
      · split at ht
        · obtain ⟨x, hx, hrest⟩ := ih t ht
          exact ⟨x, List.mem_cons_of_mem _ hx, hrest⟩
        · rcases List.mem_cons.mp ht with rfl | hin
          · rename_i hemp hcat hseen
            refine ⟨tag, List.mem_cons_self .., rfl, ?_, ?_⟩
            · simpa [List.isEmpty_iff] using hemp
            · intro he
              exact hcat (by simpa using he)
          · obtain ⟨x, hx, hrest⟩ := ih t hin
            exact ⟨x, List.mem_cons_of_mem _ hx, hrest⟩

theorem ctGo_nodup {cat : List Char} : ∀ {tags seen : List (List Char)},
    ((ctGo cat seen tags).map lowerStr).Nodup ∧
      ∀ t ∈ ctGo cat seen tags, lowerStr t ∉ seen := by
  intro tags
  induction tags with
  | nil => intro seen; exact ⟨List.nodup_nil, by intro t ht; cases ht⟩
  | cons tag tags ih =>
    intro seen
    rw [ctGo]
    split
    · exact ih
    · split
      · exact ih
      · split
        · exact ih
        · rename_i hemp hcat hseen
          obtain ⟨hnd, hmem⟩ := @ih (seen ++ [lowerStr (pstrip tag)])
          constructor
          · rw [List.map_cons, List.nodup_cons]
            refine ⟨?_, hnd⟩
            intro hin
            obtain ⟨t, ht, hteq⟩ := List.mem_map.mp hin
            have := hmem t ht
            exact this (List.mem_append_right _ (by
              rw [List.mem_singleton, hteq]))
          · intro t ht
            rcases List.mem_cons.mp ht with rfl | hin
            · intro hs
              exact hseen (by simpa [List.elem_iff] using hs)
            · intro hs
              exact hmem t hin (List.mem_append_left _ hs)

theorem ctGo_stable {cat : List Char} : ∀ {ts seen : List (List Char)},
    (∀ t ∈ ts, pstrip t = t ∧ lowerStr t ≠ [] ∧ lowerStr t ≠ cat ∧
      lowerStr t ∉ seen) →
    (ts.map lowerStr).Nodup → ctGo cat seen ts = ts := by
  intro ts
  induction ts with
  | nil => intro seen _ _; rfl
  | cons t ts ih =>
    intro seen hprops hnd
    obtain ⟨hps, hne, hnc, hns⟩ := hprops t (List.mem_cons_self ..)
    rw [List.map_cons, List.nodup_cons] at hnd
    obtain ⟨hhd, hnd'⟩ := hnd
    rw [ctGo, hps,
      if_neg (by simpa [List.isEmpty_iff] using hne),
      if_neg (by simpa using hnc),
      if_neg (by simpa [List.elem_iff] using hns)]
    congr 1
    apply ih ?_ hnd'
    intro u hu
    obtain ⟨h1, h2, h3, h4⟩ := hprops u (List.mem_cons_of_mem _ hu)
    refine ⟨h1, h2, h3, ?_⟩
    intro hin
    rcases List.mem_append.mp hin with hl | hr
    · exact h4 hl
    · rw [List.mem_singleton] at hr
      exact hhd (List.mem_map.mpr ⟨u, hu, hr⟩)

/-! ### Rebuild-line facts -/

theorem dropWhile_append_all {p : Char → Bool} {u : List Char}
    (h : ∀ a ∈ u, p a = true) (v : List Char) :
    (u ++ v).dropWhile p = v.dropWhile p := by
  induction u with
  | nil => rfl
  | cons a u ih =>
    rw [List.cons_append, List.dropWhile_cons, if_pos (h a (List.mem_cons_self ..))]
    exact ih (fun b hb => h b (List.mem_cons_of_mem _ hb))

theorem rdropWhile_append_all {p : Char → Bool} {u : List Char}
    (h : ∀ a ∈ u, p a = true) (v : List Char) :
    (v ++ u).rdropWhile p = v.rdropWhile p := by
  unfold List.rdropWhile
  rw [List.reverse_append, dropWhile_append_all (fun a ha => h a (by simpa using ha))]

theorem joinTags_ends_rb : ∀ {ts : List (List Char)}, ts ≠ [] →
    ∃ y, joinTags ts = y ++ [']'] := by
  intro ts
  induction ts with
  | nil => intro h; exact absurd rfl h
  | cons t ts ih =>
    intro _
    cases ts with
    | nil =>
      refine ⟨'[' :: t, ?_⟩
      rw [joinTags]
      simp [wrapTag]
    | cons u us =>
      obtain ⟨y, hy⟩ := ih (by simp)
      refine ⟨wrapTag t ++ ' ' :: y, ?_⟩
      rw [joinTags]
      simp only [List.isEmpty_cons, Bool.false_eq_true, if_false, hy]
      simp [List.append_assoc]

theorem rebuildLine_def (ts : List (List Char)) (ct : List Char) :
    rebuildLine ts ct =
      '-' :: ' ' :: ((joinTags ts ++ (if ts.isEmpty then [] else [' '])) ++ ct) := by
  rfl

theorem hash_prefix_dash_false (x : List Char) :
    "##".toList.isPrefixOf ('-' :: x) = false := rfl

theorem lstripDashSpace_prefix {u : List Char}
    (hu : ∀ a ∈ u, a = '-' ∨ a = ' ') {ct : List Char}
    (hhd : ct.head? ≠ some '-') (hps : pstrip ct = ct) :
    lstripDashSpace (u ++ ct) = ct := by
  unfold lstripDashSpace
  rw [dropWhile_append_all ?_ ct]
  · apply dropWhile_eq_self_of_head
    intro d hd
    have hdw : d.isWhitespace = false := pstrip_head_not_ws (x := ct) (by rw [hps]; exact hd)
    have hdd : d ≠ '-' := by
      intro he
      rw [hd, he] at hhd
      exact hhd rfl
    have hds : d ≠ ' ' := by
      intro he
      rw [he] at hdw
      exact absurd hdw (by decide)
    simp [hdd, hds]
  · intro a ha
    rcases hu a ha with rfl | rfl <;> rfl

/-- Second-pass computations on a rebuilt bullet line with nonempty
content. -/
theorem rebuild_second_pass_ct {ts : List (List Char)} {ct : List Char}
    (hts_rb : ∀ t ∈ ts, ']' ∉ t) (hct_np : NoPair ct) (hct_ps : pstrip ct = ct)
    (hct_hd : ct.head? ≠ some '-') (hct_ne : ct ≠ []) :
    pstrip (rebuildLine ts ct) = rebuildLine ts ct ∧
    findBrackets (pstrip (rebuildLine ts ct)) = ts ∧
    bulletContent (pstrip (rebuildLine ts ct)) = ct := by
  have hlast : ∀ d, (rebuildLine ts ct).getLast? = some d →
      d.isWhitespace = false := by
    intro d hd
    rw [rebuildLine_def] at hd
    have h1 : ('-' :: ' ' :: ((joinTags ts ++ (if ts.isEmpty then [] else [' '])) ++ ct)).getLast? =
        (((joinTags ts ++ (if ts.isEmpty then [] else [' '])) ++ ct)).getLast? := by
      show (['-', ' '] ++ _).getLast? = _
      exact List.getLast?_append_of_ne_nil _ (by simp [hct_ne])
    rw [h1, List.getLast?_append_of_ne_nil _ hct_ne] at hd
    exact pstrip_getLast_not_ws (x := ct) (by rw [hct_ps]; exact hd)
  have hps : pstrip (rebuildLine ts ct) = rebuildLine ts ct := by
    apply pstrip_eq_self ?_ hlast
    intro d hd
    rw [rebuildLine_def] at hd
    injection hd with hd
    subst hd
    decide
  refine ⟨hps, ?_, ?_⟩
  · rw [hps, rebuildLine_def]
    unfold findBrackets
    rw [fbGo_none_cons_ne (by decide), fbGo_none_cons_ne (by decide)]
    cases hts : ts with
    | nil =>
      show fbGo none (([] ++ []) ++ ct) = []
      rw [List.nil_append, List.nil_append]
      exact fbGo_none_noPair hct_np
    | cons t ts' =>
      rw [if_neg (by simp), List.append_assoc, List.singleton_append]
      rw [← hts, fb_join (hts ▸ hts_rb) (' ' :: ct),
        fbGo_none_cons_ne (by decide), fbGo_none_noPair hct_np, List.append_nil]
  · rw [hps, rebuildLine_def]
    unfold bulletContent subBrackets
    rw [sbGo_none_cons_ne (by decide), sbGo_none_cons_ne (by decide)]
    have hmain : ∃ w, sbGo none ((joinTags ts ++ (if ts.isEmpty then [] else [' '])) ++ ct) =
        w ++ ct ∧ ∀ a ∈ w, a = ' ' := by
      cases hts : ts with
      | nil =>
        refine ⟨[], ?_, by simp⟩
        show sbGo none (([] ++ []) ++ ct) = [] ++ ct
        rw [List.nil_append, List.nil_append]
        exact sbGo_none_noPair hct_np
      | cons t ts' =>
        rw [if_neg (by simp), List.append_assoc, List.singleton_append]
        obtain ⟨sp, hsp, hall⟩ := sb_join (hts ▸ hts_rb) (' ' :: ct)
        refine ⟨sp ++ [' '], ?_, ?_⟩
        · rw [hsp, sbGo_none_cons_ne (by decide), sbGo_none_noPair hct_np,
            List.append_assoc, List.singleton_append]
        · intro a ha
          rcases List.mem_append.mp ha with hin | hin
          · exact hall a hin
          · rw [List.mem_singleton] at hin
            exact hin
    obtain ⟨w, hw, hwall⟩ := hmain
    rw [hw]
    have hsub_ps : pstrip ('-' :: ' ' :: (w ++ ct)) = '-' :: ' ' :: (w ++ ct) := by
      apply pstrip_eq_self
      · intro d hd
        injection hd with hd
        subst hd
        decide
      · intro d hd
        have h1 : ('-' :: ' ' :: (w ++ ct)).getLast? = ct.getLast? := by
          show (['-', ' '] ++ (w ++ ct)).getLast? = _
          rw [List.getLast?_append_of_ne_nil _ (by simp [hct_ne]),
            List.getLast?_append_of_ne_nil _ hct_ne]
        rw [h1] at hd
        exact pstrip_getLast_not_ws (x := ct) (by rw [hct_ps]; exact hd)
    rw [hsub_ps]
    have hlds : lstripDashSpace ('-' :: ' ' :: (w ++ ct)) = ct := by
      show lstripDashSpace (('-' :: ' ' :: w) ++ ct) = ct
      apply lstripDashSpace_prefix ?_ hct_hd hct_ps
      intro a ha
      rcases List.mem_cons.mp ha with rfl | ha
      · left; rfl
      rcases List.mem_cons.mp ha with rfl | ha
      · right; rfl
      · right; exact hwall a ha
    rw [hlds, hct_ps]

/-- Second-pass computations on a rebuilt bullet line with empty content and
at least one tag. -/
theorem rebuild_second_pass_nct {ts : List (List Char)}
    (hts_rb : ∀ t ∈ ts, ']' ∉ t) (hts_ne : ts ≠ []) :
    pstrip (rebuildLine ts []) = '-' :: ' ' :: joinTags ts ∧
    findBrackets ('-' :: ' ' :: joinTags ts) = ts ∧
    bulletContent ('-' :: ' ' :: joinTags ts) = [] := by
  obtain ⟨y, hy⟩ := joinTags_ends_rb hts_ne
  refine ⟨?_, ?_, ?_⟩
  · rw [rebuildLine_def, if_neg (by simpa [List.isEmpty_iff] using hts_ne),
      List.append_nil]
    unfold pstrip lstripWs rstripWs
    rw [dropWhile_eq_self_of_head (by intro d hd; injection hd with hd; subst hd; decide)]
    have h1 : '-' :: ' ' :: (joinTags ts ++ [' ']) =
        ('-' :: ' ' :: joinTags ts) ++ [' '] := by simp
    rw [h1, List.rdropWhile_concat_pos _ _ _ (by decide)]
    have h2 : '-' :: ' ' :: joinTags ts = ('-' :: ' ' :: y) ++ [']'] := by
      rw [hy]; simp
    rw [h2, List.rdropWhile_concat_neg _ _ _ (by decide)]
  · unfold findBrackets
    rw [fbGo_none_cons_ne (by decide), fbGo_none_cons_ne (by decide),
      ← List.append_nil (joinTags ts), fb_join hts_rb []]
    show ts ++ [] = ts
    rw [List.append_nil]
  · unfold bulletContent subBrackets
    rw [sbGo_none_cons_ne (by decide), sbGo_none_cons_ne (by decide)]
    obtain ⟨sp, hsp, hall⟩ := sb_join hts_rb []
    rw [← List.append_nil (joinTags ts), hsp]
    have hsp2 : sbGo none [] = [] := rfl
    rw [hsp2, List.append_nil]
    have h3 : pstrip ('-' :: ' ' :: sp) = ['-'] := by
      unfold pstrip lstripWs rstripWs
      rw [dropWhile_eq_self_of_head (by intro d hd; injection hd with hd; subst hd; decide)]
      have h4 : '-' :: ' ' :: sp = ['-'] ++ (' ' :: sp) := rfl
      rw [h4, rdropWhile_append_all ?_ ['-']]
      · decide
      · intro a ha
        rcases List.mem_cons.mp ha with rfl | ha
        · decide
        · rw [hall a ha]; decide
    rw [h3]
    decide

/-- Second-pass computations on the degenerate rebuilt line `- `. -/
theorem rebuild_second_pass_empty :
    pstrip (rebuildLine [] []) = ['-'] ∧
    findBrackets (['-'] : List Char) = [] ∧
    bulletContent (['-'] : List Char) = [] :=
  ⟨by decide, by decide, by decide⟩

theorem cleanLine_rebuild_stable {cat : List Char} {ts : List (List Char)}
    {ct : List Char}
    (hts_rb : ∀ t ∈ ts, ']' ∉ t) (hts_ps : ∀ t ∈ ts, pstrip t = t)
    (hts_ne : ∀ t ∈ ts, lowerStr t ≠ []) (hts_nc : ∀ t ∈ ts, lowerStr t ≠ cat)
    (hts_nd : (ts.map lowerStr).Nodup)
    (hct_np : NoPair ct) (hct_ps : pstrip ct = ct)
    (hct_hd : ct.head? ≠ some '-') :
    cleanLine cat (rebuildLine ts ct) = (cat, rebuildLine ts ct) := by
  have hstable : cleanTagsFold cat ts = ts := by
    unfold cleanTagsFold
    apply ctGo_stable ?_ hts_nd
    intro t ht
    exact ⟨hts_ps t ht, hts_ne t ht, hts_nc t ht, List.not_mem_nil _⟩
  have hdr : "##".toList.isPrefixOf (rebuildLine ts ct) = false := by
    rw [rebuildLine_def]
    exact hash_prefix_dash_false _
  have hmk : ∀ X, pstrip (rebuildLine ts ct) = X → X.head? = some '-' →
      findBrackets X = ts → bulletContent X = ct →
      cleanLine cat (rebuildLine ts ct) = (cat, rebuildLine ts ct) := by
    intro X hX hXh hXfb hXbc
    unfold cleanLine
    rw [if_neg (by rw [hdr]; simp), if_neg (by simp [hX, hXh])]
    dsimp only
    rw [hX, hXfb, hXbc, hstable]
  by_cases hct : ct = []
  · subst hct
    by_cases hts : ts = []
    · subst hts
      obtain ⟨h1, h2, h3⟩ := rebuild_second_pass_empty
      exact hmk ['-'] h1 rfl h2 h3
    · obtain ⟨h1, h2, h3⟩ := rebuild_second_pass_nct hts_rb hts
      exact hmk ('-' :: ' ' :: joinTags ts) h1 rfl h2 h3
  · obtain ⟨h1, h2, h3⟩ := rebuild_second_pass_ct hts_rb hct_np hct_ps hct_hd hct
    refine hmk (rebuildLine ts ct) h1 ?_ (h1 ▸ h2) (h1 ▸ h3)
    rw [rebuildLine_def]
    rfl

theorem cleanLine_stable {cat l : List Char} (h : bulletStable l) :
    cleanLine cat (cleanLine cat l).2 = cleanLine cat l := by
  by_cases hh : "##".toList.isPrefixOf l = true
  · have h1 : cleanLine cat l = (categoryOf l, l) := by
      unfold cleanLine
      rw [if_pos hh]
    rw [h1]
    show cleanLine cat l = (categoryOf l, l)
    exact h1
  · by_cases hd : (pstrip l).head? = some '-'
    · have hct_hd : (bulletContent (pstrip l)).head? ≠ some '-' := by
        rcases h with h | h | h
        · exact absurd h hh
        · exact absurd hd h
        · exact h
      have h1 : cleanLine cat l =
          (cat, rebuildLine (cleanTagsFold cat (findBrackets (pstrip l)))
            (bulletContent (pstrip l))) := by
        unfold cleanLine
        rw [if_neg hh, if_neg (not_not_intro hd)]
      rw [h1]
      show cleanLine cat (rebuildLine (cleanTagsFold cat (findBrackets (pstrip l)))
            (bulletContent (pstrip l))) =
          (cat, rebuildLine (cleanTagsFold cat (findBrackets (pstrip l)))
            (bulletContent (pstrip l)))
      apply cleanLine_rebuild_stable
      · intro t ht
        obtain ⟨tag, htag, rfl, _, _⟩ := ctGo_mem t ht
        intro hin
        exact findBrackets_no_rb tag htag (mem_pstrip hin)
      · intro t ht
        obtain ⟨tag, htag, rfl, _, _⟩ := ctGo_mem t ht
        exact pstrip_idem tag
      · intro t ht
        obtain ⟨tag, htag, rfl, hne, hnc⟩ := ctGo_mem t ht
        exact hne
      · intro t ht
        obtain ⟨tag, htag, rfl, hne, hnc⟩ := ctGo_mem t ht
        exact hnc
      · exact (@ctGo_nodup cat (findBrackets (pstrip l)) []).1
      · exact noPair_pstrip (noPair_dropWhile (noPair_pstrip (noPair_subBrackets _)))
      · exact pstrip_idem _
      · exact hct_hd
    · have h1 : cleanLine cat l = (cat, l) := by
        unfold cleanLine
        rw [if_neg hh, if_pos hd]
      rw [h1]
      show cleanLine cat l = (cat, l)
      exact h1

theorem cleanGo_stable : ∀ {lines : List (List Char)} {cat : List Char},
    (∀ l ∈ lines, bulletStable l) →
    cleanGo cat (cleanGo cat lines) = cleanGo cat lines := by
  intro lines
  induction lines with
  | nil => intro cat _; rfl
  | cons l ls ih =>
    intro cat h
    show cleanGo cat ((cleanLine cat l).2 :: cleanGo (cleanLine cat l).1 ls) = _
    rw [cleanGo, cleanLine_stable (h l (List.mem_cons_self ..)),
      ih (fun x hx => h x (List.mem_cons_of_mem _ hx))]
    rfl

/-- **C4** (corrected).  `clean_tags` is idempotent on every file in which
each bullet line is stable: its content, after removing all bracket groups,
stripping, removing the leading `- ` marker and stripping again, does not
itself begin with a dash.  (Unrestricted idempotence is refuted by
`clean_tags_counterexample`: in `- [a] \t- foo`, `lstrip('- ')` stops at the
tab, the subsequent `strip()` removes the tab and re-exposes an inner `- `
that only the second pass consumes.) -/
theorem clean_tags_idempotent {lines : List (List Char)}
    (h : ∀ l ∈ lines, bulletStable l) :
    clean_tags (clean_tags lines) = clean_tags lines := by
  unfold clean_tags
  exact cleanGo_stable h

/-- Concrete instantiation of `clean_tags_idempotent`: a category header
followed by a bullet line carrying a category-equal tag, a duplicate tag and
an inner bracket group. -/
theorem clean_tags_idempotent_witness :
    (∀ l ∈ ["## Bug Fixes:".toList,
        "- [bug fixes][API][api] Fix [x] thing (#1).".toList], bulletStable l) ∧
    clean_tags (clean_tags ["## Bug Fixes:".toList,
        "- [bug fixes][API][api] Fix [x] thing (#1).".toList]) =
      clean_tags ["## Bug Fixes:".toList,
        "- [bug fixes][API][api] Fix [x] thing (#1).".toList] :=
  ⟨by decide, clean_tags_idempotent (by decide)⟩
